import Mathlib

/-!
# RAMA: sparse coordinate matrices and their index transforms

A shallow embedding of `src/include/parallel_gaec_utils.h` and `src/dCOO.h`.

Conventions of the embedding.

* A `thrust::device_vector<T>` is a `List T`.
* An `int` is an `Int` between `INT_MIN` and `INT_MAX`.  The only arithmetic
  the embedded code does on `int` values is `max + 1` (in `dCOO::init`) and
  `back + 2` (in `compute_offsets`); all other uses are comparisons and copies.
  The sum `max + 1` is stored in the 32-bit members `rows_` and `cols_`: it is
  reduced modulo 2^32 into the `int` range (`int_wrap`), so that at a largest
  index of `INT_MAX` the stored size is `INT_MIN` and the assertion that
  follows fails.  The sum `back + 2`, the number of slots of the offset table,
  is taken in `Int`.  `rows()` and `cols()` return the stored `int` members.
* A `float` weight is only copied by the sorting, transposing and constructing
  functions, so their weight type is a parameter `W`; `[Zero W]` supplies the
  value a freshly allocated `device_vector<float>(n)` is filled with.  `get_lb`
  adds costs; it is embedded on exact rational costs, without rounding.
* A failed `assert`, a dereferenced `end()` iterator and an out-of-range access
  are the result `none`.
-/

namespace RAMA

/-! ## Machine integers -/

/-- The smallest value of a 32-bit `int`. -/
def INT_MIN : Int := -2147483648

/-- The largest value of a 32-bit `int`. -/
def INT_MAX : Int := 2147483647

/-- The value a 32-bit `int` holds after a sum whose exact result is `x`: `x`
reduced modulo 2^32 into `[INT_MIN, INT_MAX]`. -/
def int_wrap (x : Int) : Int :=
  (x + 2147483648) % 4294967296 - 2147483648

/-! ## The thrust primitives the code calls -/

namespace thrust

/-- Thrust primitive `thrust::copy(first, last, result)` with `result = dst.begin() + off`:
overwrites `dst[off .. off + |src|)` with `src` (used with room in `dst`). -/
def copy {α : Type} (src dst : List α) (off : Nat) : List α :=
  dst.take off ++ src ++ dst.drop (off + src.length)

/-- Thrust primitive `thrust::remove_if(first, last, pred)` followed by the `resize` to the new
end: the elements for which `pred` is false, in their original order. -/
def remove_if {α : Type} (l : List α) (pred : α → Bool) : List α :=
  l.filter (fun e => !pred e)

/-- Thrust primitive `thrust::sequence(first, last)` on a vector of `n` elements: `0, 1, .., n-1`. -/
def sequence (n : Nat) : List Nat :=
  List.range n

/-- Thrust primitive `thrust::gather(map_first, map_last, input_first, result)`:
`result[k] = input[map[k]]` for every `k < |map|`; the elements of `result`
past `|map|` are untouched.  `none` when a map entry is outside `input` or the
map is longer than `result`. -/
def gather {α : Type} (map : List Nat) (input result : List α) : Option (List α) :=
  if map.length ≤ result.length then
    (map.mapM (fun m => input[m]?)).map (fun g => g ++ result.drop map.length)
  else none

/-- Thrust primitive `thrust::stable_sort_by_key(keys_first, keys_last, values_first)`: sorts the
keys into non-decreasing order, moving each value with its key and keeping the
relative order of equal keys.  `none` when there are fewer values than keys. -/
def stable_sort_by_key {β : Type} (keys : List Int) (values : List β) :
    Option (List Int × List β) :=
  if keys.length ≤ values.length then
    let s := List.insertionSort (fun a b : Int × β => a.1 ≤ b.1) (keys.zip values)
    some (s.map Prod.fst, s.map Prod.snd ++ values.drop keys.length)
  else none

/-- Thrust primitive `thrust::is_sorted(first, last)`: no element is smaller than its predecessor. -/
def is_sorted : List Int → Bool
  | [] => true
  | [_] => true
  | a :: b :: rest => decide (a ≤ b) && is_sorted (b :: rest)

/-- The scan of `thrust::unique_by_key_copy` after the first element: a value
is emitted whenever its key differs from the previous key. -/
def unique_by_key_copy_from {κ ν : Type} [DecidableEq κ] (prev : κ) :
    List κ → List ν → List ν
  | k :: ks, v :: vs =>
      if k = prev then unique_by_key_copy_from prev ks vs
      else v :: unique_by_key_copy_from k ks vs
  | _, _ => []

/-- Thrust primitive `thrust::unique_by_key_copy(keys_first, keys_last, values_first,
discard, values_result)`: for every maximal run of consecutive equal keys the
value of the run's first element, written consecutively (compacted). -/
def unique_by_key_copy {κ ν : Type} [DecidableEq κ] : List κ → List ν → List ν
  | k :: ks, v :: vs => v :: unique_by_key_copy_from k ks vs
  | _, _ => []

/-- Thrust primitive `*thrust::max_element(first, last)`: the largest element; `none` on an
empty range, where the returned iterator is `last` and cannot be dereferenced. -/
def max_element : List Int → Option Int
  | [] => none
  | x :: xs => some (xs.foldl max x)

/-- Thrust primitive `thrust::transform_reduce(first, last, unary_op, init,
binary_op)`: the elements are transformed by `unary_op` and combined with
`binary_op`, starting from `init`. -/
def transform_reduce {α β : Type} (l : List α) (unary_op : α → β) (init : β)
    (binary_op : β → β → β) : β :=
  l.foldl (fun acc x => binary_op acc (unary_op x)) init

end thrust

/-! ## `parallel_gaec_utils.h` -/

/-- Source function `to_undirected(i, j, costs)` (with the iterator overload it forwards to). -/
def to_undirected {W : Type} [Zero W] (i j : List Int) (costs : List W) :
    Option (List Int × List Int × List W) :=
  if i.length = j.length ∧ i.length = costs.length then
    if costs.length = j.length ∧ costs.length = i.length then
      let nr_edges := costs.length
      let col_ids_u : List Int := List.replicate (2 * nr_edges) 0
      let row_ids_u : List Int := List.replicate (2 * nr_edges) 0
      let costs_u : List W := List.replicate (2 * nr_edges) 0
      let row_ids_u := thrust.copy i row_ids_u 0
      let col_ids_u := thrust.copy i col_ids_u nr_edges
      let col_ids_u := thrust.copy j col_ids_u 0
      let row_ids_u := thrust.copy j row_ids_u nr_edges
      let costs_u := thrust.copy costs costs_u 0
      let costs_u := thrust.copy costs costs_u nr_edges
      some (row_ids_u, col_ids_u, costs_u)
    else none
  else none

/-- Source function `remove_reverse_edges_func::operator()`. -/
def remove_reverse_edges_func {W : Type} (e : Int × Int × W) : Bool :=
  decide (e.1 ≥ e.2.1)

/-- Source function `to_directed(i_symm, j_symm, costs_symm)`. -/
def to_directed {W : Type} (i_symm j_symm : List Int) (costs_symm : List W) :
    Option (List Int × List Int × List W) :=
  if i_symm.length = j_symm.length ∧ i_symm.length = costs_symm.length then
    let kept := thrust.remove_if (i_symm.zip (j_symm.zip costs_symm)) remove_reverse_edges_func
    some (kept.map (fun e => e.1), kept.map (fun e => e.2.1), kept.map (fun e => e.2.2))
  else none

/-- Source function `apply_permutation(keys, permutation)`: the new contents of `keys`. -/
def apply_permutation {T : Type} (keys : List T) (permutation : List Nat) :
    Option (List T) :=
  let temp := keys
  thrust.gather permutation temp keys

/-- Source function `update_permutation(keys, permutation)`: the new contents of `permutation`
(`keys` is not modified). -/
def update_permutation (keys : List Int) (permutation : List Nat) : Option (List Nat) := do
  let temp : List Int := List.replicate keys.length 0
  let temp ← thrust.gather permutation keys temp
  let sorted ← thrust.stable_sort_by_key temp permutation
  pure sorted.2

/-- Source function `coo_sorting(col_ids, row_ids, data)`: the new contents of the three
vectors, in the order `(col_ids, row_ids, data)`. -/
def coo_sorting {W : Type} (col_ids row_ids : List Int) (data : List W) :
    Option (List Int × List Int × List W) :=
  if row_ids.length = col_ids.length ∧ row_ids.length = data.length then do
    let N := row_ids.length
    let permutation := thrust.sequence N
    let permutation ← update_permutation col_ids permutation
    let permutation ← update_permutation row_ids permutation
    let col_ids ← apply_permutation col_ids permutation
    let row_ids ← apply_permutation row_ids permutation
    let data ← apply_permutation data permutation
    if thrust.is_sorted row_ids then some (col_ids, row_ids, data) else none
  else none

/-- Source function `compute_lb::operator()`, on exact (rational) costs. -/
def compute_lb (val : ℚ) : ℚ :=
  if val < 0 then val else 0

/-- Source function `get_lb(costs)`, on exact (rational) costs. -/
def get_lb (costs : List ℚ) : ℚ :=
  thrust.transform_reduce costs compute_lb 0 (fun a b => a + b)

/-- Source function `coo_sorting(i, j, k)`, the overload with three key
vectors: the new contents of `(i, j, k)`. -/
def coo_sorting_three_keys (i j k : List Int) : Option (List Int × List Int × List Int) :=
  if i.length = j.length ∧ i.length = k.length then do
    let N := i.length
    let permutation := thrust.sequence N
    let permutation ← update_permutation k permutation
    let permutation ← update_permutation j permutation
    let permutation ← update_permutation i permutation
    let k ← apply_permutation k permutation
    let j ← apply_permutation j permutation
    let i ← apply_permutation i permutation
    if thrust.is_sorted i then some (i, j, k) else none
  else none

/-- Source function `compute_offsets(i)`. -/
def compute_offsets (i : List Int) : Option (List Int) :=
  if thrust.is_sorted i then
    match i.getLast? with
    | none => none
    | some back =>
      if back + 2 < 0 then none
      else
        let offsets : List Int := List.replicate (back + 2).toNat 0
        let written := thrust.unique_by_key_copy i ((List.range i.length).map Int.ofNat)
        if written.length ≤ offsets.length ∧ offsets ≠ [] then
          let offsets := written ++ offsets.drop written.length
          some (offsets.dropLast ++ [(i.length : Int)])
        else none
  else none

/-! ## `dCOO.h` -/

/-- The data members of `class dCOO`, with their default member initialisers. -/
structure dCOO (W : Type) where
  rows_ : Int := 0
  cols_ : Int := 0
  data : List W := []
  row_ids : List Int := []
  col_ids : List Int := []
  is_sorted : Bool := false
  deriving DecidableEq

namespace dCOO

variable {W : Type}

/-- Member `dCOO::rows()`: the stored `rows_`. -/
def rows (A : dCOO W) : Int := A.rows_

/-- Member `dCOO::cols()`: the stored `cols_`. -/
def cols (A : dCOO W) : Int := A.cols_

/-- Member `dCOO::edges()`. -/
def edges (A : dCOO W) : Nat := A.row_ids.length

/-- Member `dCOO::sorted()`. -/
def sorted (A : dCOO W) : Bool := A.is_sorted

/-- Member `dCOO::init`, run on the object `self` whose `rows_` and `cols_` the
constructor has already set. -/
def init (self : dCOO W) (col_id row_id : List Int) (data : List W) : Option (dCOO W) :=
  if data.length = col_id.length ∧ data.length = row_id.length then do
    let self : dCOO W := { self with row_ids := row_id, col_ids := col_id, data := data }
    let self : dCOO W ←
      if self.cols_ = 0 then
        (thrust.max_element self.col_ids).map (fun m => { self with cols_ := int_wrap (m + 1) })
      else some self
    let max_col ← thrust.max_element self.col_ids
    if self.cols_ > max_col then
      let self : dCOO W ←
        if self.rows_ = 0 then
          (thrust.max_element self.row_ids).map
            (fun m => { self with rows_ := int_wrap (m + 1) })
        else some self
      let max_row ← thrust.max_element self.row_ids
      if self.rows_ > max_row then some self else none
    else none
  else none

/-- The constructor `dCOO(handle, _rows, _cols, col ids, row ids, data)`. -/
def construct (_rows _cols : Int) (col_id row_id : List Int) (data : List W) :
    Option (dCOO W) :=
  init { rows_ := _rows, cols_ := _cols } col_id row_id data

/-- The constructor `dCOO(handle, col ids, row ids, data)` that takes no sizes. -/
def construct_no_sizes (col_id row_id : List Int) (data : List W) : Option (dCOO W) :=
  init {} col_id row_id data

/-- The default constructor `dCOO()`. -/
def construct_default : dCOO W := {}

end dCOO

/-! ## Vocabulary of the statements -/

/-- The (row, col, weight) triples stored in three parallel arrays. -/
def entries {W : Type} (x : List Int × List Int × List W) : List (Int × Int × W) :=
  x.1.zip (x.2.1.zip x.2.2)

/-- Composition: `to_undirected` followed by `to_directed` on its result. -/
def directed_of_undirected {W : Type} [Zero W] (i j : List Int) (costs : List W) :
    Option (List Int × List Int × List W) :=
  (to_undirected i j costs).bind (fun u => to_directed u.1 u.2.1 u.2.2)

/-- The elements of `input` read at the positions `map`, in the order of `map`
(positions outside `input` contribute nothing). -/
def picked {α : Type} (input : List α) (map : List Nat) : List α :=
  map.filterMap (fun m => input[m]?)

/-- The order `update_permutation keys permutation` leaves in `permutation`:
the positions of `permutation`, stably sorted by the key each one points to. -/
def reordered (keys : List Int) (permutation : List Nat) : List Nat :=
  (List.insertionSort (fun a b : Int × Nat => a.1 ≤ b.1)
    ((picked keys permutation).zip permutation)).map Prod.snd

/-- The permutation `coo_sorting(col_ids, row_ids, ..)` applies to its arrays. -/
def sorting_permutation (col_ids row_ids : List Int) : List Nat :=
  reordered row_ids (reordered col_ids (thrust.sequence row_ids.length))

/-- The number of entries of the row array `i` that lie in a row before `r`. -/
def entries_before (i : List Int) (r : Int) : Nat :=
  (i.filter (fun x => decide (x < r))).length

/-- The lexicographic order on (first key, second key) of two triples. -/
@[reducible]
def lex_le {W : Type} (a b : Int × Int × W) : Prop :=
  a.1 < b.1 ∨ (a.1 = b.1 ∧ a.2.1 ≤ b.2.1)

/-- The lexicographic order on all three keys of two triples of keys. -/
@[reducible]
def lex3_le (a b : Int × Int × Int) : Prop :=
  a.1 < b.1 ∨ (a.1 = b.1 ∧ (a.2.1 < b.2.1 ∨ (a.2.1 = b.2.1 ∧ a.2.2 ≤ b.2.2)))

/-- The entries of a triple list whose first two keys are `(r, c)`, in order. -/
def with_keys {W : Type} (r c : Int) (l : List (Int × Int × W)) : List (Int × Int × W) :=
  l.filter (fun e => decide (e.1 = r) && decide (e.2.1 = c))

/-! ## Lemmas: triples, `to_undirected` and `to_directed` -/

theorem zip_of_maps {W : Type} (l : List (Int × Int × W)) :
    (l.map (fun e => e.1)).zip ((l.map (fun e => e.2.1)).zip (l.map (fun e => e.2.2))) = l := by
  induction l with
  | nil => rfl
  | cons a t ih => simp [ih]

theorem copy_front {α : Type} (src : List α) (z : α) (n : Nat) (h : src.length = n) :
    thrust.copy src (List.replicate (2 * n) z) 0 = src ++ List.replicate n z := by
  subst h
  simp [thrust.copy, two_mul]

theorem copy_back {α : Type} (src pre : List α) (z : α) (n : Nat) (h : src.length = n)
    (hp : pre.length = n) :
    thrust.copy src (pre ++ List.replicate n z) n = pre ++ src := by
  subst h
  simp [thrust.copy, hp]

theorem copy_back_replicate {α : Type} (src : List α) (z : α) (n : Nat) (h : src.length = n) :
    thrust.copy src (List.replicate (2 * n) z) n = List.replicate n z ++ src := by
  subst h
  simp [thrust.copy, two_mul]

theorem copy_front_over {α : Type} (src suf : List α) (z : α) (n : Nat) (h : src.length = n) :
    thrust.copy src (List.replicate n z ++ suf) 0 = src ++ suf := by
  subst h
  simp [thrust.copy]

/-- The closed form of `to_undirected` on arrays of equal length. -/
theorem to_undirected_eq {W : Type} [Zero W] (i j : List Int) (costs : List W)
    (hij : i.length = j.length) (hic : i.length = costs.length) :
    to_undirected i j costs = some (i ++ j, j ++ i, costs ++ costs) := by
  have hj : j.length = costs.length := by omega
  unfold to_undirected
  rw [if_pos ⟨hij, hic⟩, if_pos ⟨hj.symm, hic.symm⟩]
  simp only []
  rw [copy_front i 0 costs.length hic, copy_back j i 0 costs.length hj hic,
    copy_back_replicate i 0 costs.length hic, copy_front_over j i 0 costs.length hj,
    copy_front costs 0 costs.length rfl, copy_back costs costs 0 costs.length rfl rfl]

/-- The closed form of `to_directed` on arrays of equal length. -/
theorem entries_to_directed {W : Type} (i j : List Int) (costs : List W)
    (hij : i.length = j.length) (hic : i.length = costs.length) :
    ∃ out, to_directed i j costs = some out ∧
      entries out = (entries (i, j, costs)).filter (fun e => decide (e.1 < e.2.1)) ∧
      out.1 = (entries out).map (fun e => e.1) ∧
      out.2.1 = (entries out).map (fun e => e.2.1) ∧
      out.2.2 = (entries out).map (fun e => e.2.2) := by
  unfold to_directed
  rw [if_pos ⟨hij, hic⟩]
  refine ⟨_, rfl, ?_, ?_, ?_, ?_⟩
  · simp only [entries, zip_of_maps, thrust.remove_if]
    apply List.filter_congr
    intro e _
    by_cases h : e.1 < e.2.1
    · simp [remove_reverse_edges_func, h]
    · simp [remove_reverse_edges_func, h, not_lt.mp h]
  all_goals simp only [entries, zip_of_maps]


theorem entries_append {W : Type} (i i2 j j2 : List Int) (c c2 : List W)
    (hij : i.length = j.length) (hic : i.length = c.length) :
    entries (i ++ i2, j ++ j2, c ++ c2) = entries (i, j, c) ++ entries (i2, j2, c2) := by
  unfold entries
  simp only []
  rw [List.zip_append (by omega), List.zip_append (by simp [List.length_zip]; omega)]

theorem entries_length {W : Type} (i j : List Int) (c : List W)
    (hij : i.length = j.length) (hic : i.length = c.length) :
    (entries (i, j, c)).length = i.length := by
  simp [entries, List.length_zip]; omega

theorem entries_maps {W : Type} (i j : List Int) (c : List W)
    (hij : i.length = j.length) (hic : i.length = c.length) :
    (entries (i, j, c)).map (fun e => e.1) = i ∧
    (entries (i, j, c)).map (fun e => e.2.1) = j ∧
    (entries (i, j, c)).map (fun e => e.2.2) = c := by
  induction i generalizing j c with
  | nil =>
    cases j with
    | nil => cases c with
      | nil => simp [entries]
      | cons _ _ => simp at hic
    | cons _ _ => simp at hij
  | cons a t ih =>
    cases j with
    | nil => simp at hij
    | cons b tj =>
      cases c with
      | nil => simp at hic
      | cons w tc =>
        have h := ih tj tc (by simpa using hij) (by simpa using hic)
        simp only [entries] at h ⊢
        simp [h.1, h.2.1, h.2.2]

theorem mem_entries_swap {W : Type} (i j : List Int) (c : List W) (a b : Int) (w : W)
    (h : (a, b, w) ∈ entries (j, i, c)) : (b, a, w) ∈ entries (i, j, c) := by
  induction i generalizing j c with
  | nil => cases j <;> simp [entries] at h
  | cons x t ih =>
    cases j with
    | nil => simp [entries] at h
    | cons y tj =>
      cases c with
      | nil => simp [entries] at h
      | cons v tc =>
        simp only [entries, List.zip_cons_cons, List.mem_cons, Prod.mk.injEq] at h ⊢
        rcases h with ⟨h1, h2, h3⟩ | h
        · exact Or.inl ⟨h2, h1, h3⟩
        · exact Or.inr (ih tj tc h)

/-- On a list whose entries all have row < col, `to_undirected` followed by
`to_directed` gives back the three arrays. -/
theorem directed_of_undirected_eq {W : Type} [Zero W] (i j : List Int) (costs : List W)
    (hij : i.length = j.length) (hic : i.length = costs.length)
    (hlt : ∀ e ∈ entries (i, j, costs), e.1 < e.2.1) :
    directed_of_undirected i j costs = some (i, j, costs) := by
  unfold directed_of_undirected
  rw [to_undirected_eq i j costs hij hic]
  simp only [Option.some_bind]
  obtain ⟨out, hout, hent, h1, h2, h3⟩ := entries_to_directed (i ++ j) (j ++ i) (costs ++ costs)
    (by simp; omega) (by simp; omega)
  rw [hout]
  have hkeep : (entries (i, j, costs)).filter (fun e => decide (e.1 < e.2.1))
      = entries (i, j, costs) := by
    rw [List.filter_eq_self]
    intro e he
    simpa using hlt e he
  have hdrop : (entries (j, i, costs)).filter (fun e => decide (e.1 < e.2.1)) = [] := by
    rw [List.filter_eq_nil_iff]
    intro e he
    have := hlt _ (mem_entries_swap i j costs e.1 e.2.1 e.2.2 he)
    simp only [decide_eq_true_eq, not_lt]
    exact le_of_lt this
  rw [entries_append i j j i costs costs hij hic, List.filter_append, hkeep, hdrop,
    List.append_nil] at hent
  obtain ⟨m1, m2, m3⟩ := entries_maps i j costs hij hic
  rw [hent] at h1 h2 h3
  rw [m1] at h1
  rw [m2] at h2
  rw [m3] at h3
  congr 1
  exact Prod.ext h1 (Prod.ext h2 h3)

/-! ## Claims on `to_directed` and `to_undirected` -/

/-- C1, as the code behaves: on arrays of equal length `to_directed` returns
exactly the entries with row < col, in their input order; an entry (r, c, w) is
in the result if and only if it is in the input and r < c, so every entry with
r >= c, diagonal entries included, is dropped. -/
theorem to_directed_keeps_row_lt_col {W : Type} (i_symm j_symm : List Int)
    (costs_symm : List W) (hij : i_symm.length = j_symm.length)
    (hic : i_symm.length = costs_symm.length) :
    ∃ out, to_directed i_symm j_symm costs_symm = some out ∧
      out.1.length = out.2.1.length ∧ out.1.length = out.2.2.length ∧
      entries out =
        (entries (i_symm, j_symm, costs_symm)).filter (fun e => decide (e.1 < e.2.1)) ∧
      ∀ r c w, (r, c, w) ∈ entries out ↔
        ((r, c, w) ∈ entries (i_symm, j_symm, costs_symm) ∧ r < c) := by
  obtain ⟨out, hout, hent, h1, h2, h3⟩ := entries_to_directed i_symm j_symm costs_symm hij hic
  refine ⟨out, hout, ?_, ?_, hent, ?_⟩
  · rw [h1, h2]; simp
  · rw [h1, h3]; simp
  · intro r c w
    rw [hent, List.mem_filter]
    simp

/-- C1, witness: a list holding an entry below the diagonal, one above it and
one on it. -/
theorem to_directed_keeps_row_lt_col_witness :
    ([1, 0, 2] : List Int).length = ([0, 1, 2] : List Int).length ∧
    ([1, 0, 2] : List Int).length = ([5, 7, 9] : List Int).length ∧
    ∃ out, to_directed [1, 0, 2] [0, 1, 2] [(5 : Int), 7, 9] = some out ∧
      out.1.length = out.2.1.length ∧ out.1.length = out.2.2.length ∧
      entries out =
        (entries ([1, 0, 2], [0, 1, 2], [(5 : Int), 7, 9])).filter
          (fun e => decide (e.1 < e.2.1)) ∧
      ∀ r c w, (r, c, w) ∈ entries out ↔
        ((r, c, w) ∈ entries ([1, 0, 2], [0, 1, 2], [(5 : Int), 7, 9]) ∧ r < c) :=
  ⟨rfl, rfl, to_directed_keeps_row_lt_col [1, 0, 2] [0, 1, 2] [5, 7, 9] rfl rfl⟩

/-- C1, counterexample to the claim as stated: on the entries (1,0,5), (0,1,7)
and (2,2,9) the result is exactly (0,1,7); the entries (1,0,5) and (2,2,9), with
row >= col, are dropped and the entry (0,1,7), with row < col, is kept. -/
theorem to_directed_row_ge_col_counterexample :
    to_directed [1, 0, 2] [0, 1, 2] [(5 : Int), 7, 9] = some ([0], [1], [7]) ∧
    ((1 : Int), (0 : Int), (5 : Int)) ∈ entries ([1, 0, 2], [0, 1, 2], [(5 : Int), 7, 9]) ∧
    (1 : Int) ≥ 0 ∧
    ((1 : Int), (0 : Int), (5 : Int)) ∉ entries ([0], [1], [(7 : Int)]) ∧
    ((2 : Int), (2 : Int), (9 : Int)) ∉ entries ([0], [1], [(7 : Int)]) ∧
    ((0 : Int), (1 : Int), (7 : Int)) ∈ entries ([0], [1], [(7 : Int)]) ∧ (0 : Int) < 1 := by
  refine ⟨by decide, by decide, by decide, by decide, by decide, by decide, by decide⟩

/-- C6: on arrays of equal length `E`, `to_undirected` returns three arrays of
length `2 * E`; entry `e` of the result is (row[e], col[e], w[e]) and entry
`E + e` is (col[e], row[e], w[e]) for every `e < E`, whatever the input holds:
the result is the input followed by its transpose, nothing merged or removed. -/
theorem to_undirected_doubles {W : Type} [Zero W] (i j : List Int) (costs : List W)
    (hij : i.length = j.length) (hic : i.length = costs.length) :
    ∃ out, to_undirected i j costs = some out ∧
      out.1.length = 2 * i.length ∧ out.2.1.length = 2 * i.length ∧
      out.2.2.length = 2 * i.length ∧
      (∀ e, e < i.length →
        out.1[e]? = i[e]? ∧ out.2.1[e]? = j[e]? ∧ out.2.2[e]? = costs[e]? ∧
        out.1[i.length + e]? = j[e]? ∧ out.2.1[i.length + e]? = i[e]? ∧
        out.2.2[i.length + e]? = costs[e]?) ∧
      entries out = entries (i, j, costs) ++ entries (j, i, costs) := by
  refine ⟨_, to_undirected_eq i j costs hij hic, ?_, ?_, ?_, ?_, ?_⟩
  · simp; omega
  · simp; omega
  · simp; omega
  · intro e he
    have hj : e < j.length := by omega
    have hc : e < costs.length := by omega
    refine ⟨?_, ?_, ?_, ?_, ?_, ?_⟩
    · simp [List.getElem?_append_left he]
    · simp [List.getElem?_append_left hj]
    · simp [List.getElem?_append_left hc]
    · simp [List.getElem?_append_right]
    · rw [hij]; simp [List.getElem?_append_right]
    · rw [hic]; simp [List.getElem?_append_right]
  · exact entries_append i j j i costs costs hij hic

/-- C6, witness: an input that already holds both (0,1) and (1,0). -/
theorem to_undirected_doubles_witness :
    ([0, 1] : List Int).length = ([1, 0] : List Int).length ∧
    ([0, 1] : List Int).length = ([3, 4] : List Int).length ∧
    ∃ out, to_undirected [0, 1] [1, 0] [(3 : Int), 4] = some out ∧
      out.1.length = 2 * ([0, 1] : List Int).length ∧
      out.2.1.length = 2 * ([0, 1] : List Int).length ∧
      out.2.2.length = 2 * ([0, 1] : List Int).length ∧
      (∀ e, e < ([0, 1] : List Int).length →
        out.1[e]? = ([0, 1] : List Int)[e]? ∧ out.2.1[e]? = ([1, 0] : List Int)[e]? ∧
        out.2.2[e]? = ([3, 4] : List Int)[e]? ∧
        out.1[([0, 1] : List Int).length + e]? = ([1, 0] : List Int)[e]? ∧
        out.2.1[([0, 1] : List Int).length + e]? = ([0, 1] : List Int)[e]? ∧
        out.2.2[([0, 1] : List Int).length + e]? = ([3, 4] : List Int)[e]?) ∧
      entries out = entries ([0, 1], [1, 0], [(3 : Int), 4]) ++ entries ([1, 0], [0, 1], [3, 4]) :=
  ⟨rfl, rfl, to_undirected_doubles [0, 1] [1, 0] [3, 4] rfl rfl⟩

/-- C7, as the code behaves: for every triple list in which every entry has
row < col (so it has no diagonal entry and no two entries that are reverses of
each other), `to_directed (to_undirected x)` equals `x` as a multiset of
(row, col, weight) triples. -/
theorem directed_of_undirected_perm {W : Type} [Zero W] (i j : List Int) (costs : List W)
    (hij : i.length = j.length) (hic : i.length = costs.length)
    (hlt : ∀ e ∈ entries (i, j, costs), e.1 < e.2.1) :
    ∃ d, directed_of_undirected i j costs = some d ∧
      (entries d).Perm (entries (i, j, costs)) :=
  ⟨_, directed_of_undirected_eq i j costs hij hic hlt, List.Perm.refl _⟩

/-- C7, witness: the edges (0,1,5), (1,3,6) and (0,3,7). -/
theorem directed_of_undirected_perm_witness :
    ([0, 1, 0] : List Int).length = ([1, 3, 3] : List Int).length ∧
    ([0, 1, 0] : List Int).length = ([5, 6, 7] : List Int).length ∧
    (∀ e ∈ entries ([0, 1, 0], [1, 3, 3], [(5 : Int), 6, 7]), e.1 < e.2.1) ∧
    ∃ d, directed_of_undirected [0, 1, 0] [1, 3, 3] [(5 : Int), 6, 7] = some d ∧
      (entries d).Perm (entries ([0, 1, 0], [1, 3, 3], [(5 : Int), 6, 7])) :=
  ⟨rfl, rfl, by decide,
    directed_of_undirected_perm [0, 1, 0] [1, 3, 3] [5, 6, 7] rfl rfl (by decide)⟩

/-- C7, counterexample to the claim as stated: the list holding the one entry
(1,0,5) has row >= col, no diagonal entry and no reversed pair, and
`to_directed (to_undirected x)` is the one entry (0,1,5), which is not `x`. -/
theorem directed_of_undirected_row_ge_col_counterexample :
    (∀ e ∈ entries ([1], [0], [(5 : Int)]), e.1 ≥ e.2.1 ∧ e.1 ≠ e.2.1) ∧
    (∀ e ∈ entries ([1], [0], [(5 : Int)]), ∀ f ∈ entries ([1], [0], [(5 : Int)]),
      ¬ (e.1 = f.2.1 ∧ e.2.1 = f.1)) ∧
    directed_of_undirected [1] [0] [(5 : Int)] = some ([0], [1], [5]) ∧
    ¬ (entries ([0], [1], [(5 : Int)])).Perm (entries ([1], [0], [(5 : Int)])) := by
  refine ⟨by decide, by decide, by decide, by decide⟩

/-! ## Lemmas: `gather`, `stable_sort_by_key` and the sorting permutation -/

theorem mapM_getElem?_eq {α : Type} (input : List α) (map : List Nat)
    (h : ∀ m ∈ map, m < input.length) :
    map.mapM (fun m => input[m]?) = some (picked input map) := by
  induction map with
  | nil => rfl
  | cons a t ih =>
    have ha : a < input.length := h a (List.mem_cons_self _ _)
    have ht := ih (fun m hm => h m (List.mem_cons_of_mem _ hm))
    rw [List.mapM_cons, ht, List.getElem?_eq_getElem ha]
    simp [picked, List.getElem?_eq_getElem ha]

theorem length_picked {α : Type} (input : List α) (map : List Nat)
    (h : ∀ m ∈ map, m < input.length) : (picked input map).length = map.length := by
  induction map with
  | nil => rfl
  | cons a t ih =>
    have ha : a < input.length := h a (List.mem_cons_self _ _)
    have ht := ih (fun m hm => h m (List.mem_cons_of_mem _ hm))
    simp [picked, List.getElem?_eq_getElem ha] at ht ⊢
    exact ht

theorem gather_eq {α : Type} (map : List Nat) (input result : List α)
    (h : ∀ m ∈ map, m < input.length) (hlen : map.length = result.length) :
    thrust.gather map input result = some (picked input map) := by
  unfold thrust.gather
  rw [if_pos (le_of_eq hlen), mapM_getElem?_eq input map h, hlen]
  simp

theorem picked_range {α : Type} (input : List α) :
    picked input (List.range input.length) = input := by
  apply List.ext_getElem?
  intro k
  unfold picked
  induction input using List.reverseRecOn generalizing k with
  | nil => simp
  | append_singleton l a ih =>
    rw [List.length_append, List.length_singleton, List.range_succ, List.filterMap_append]
    have h1 : List.filterMap (fun m => (l ++ [a])[m]?) (List.range l.length) = l := by
      have : List.filterMap (fun m => (l ++ [a])[m]?) (List.range l.length)
          = List.filterMap (fun m => l[m]?) (List.range l.length) := by
        apply List.filterMap_congr
        intro m hm
        rw [List.getElem?_append_left (List.mem_range.mp hm)]
      rw [this]
      apply List.ext_getElem?
      intro j
      exact ih j
    rw [h1]
    simp

theorem picked_perm {α : Type} (input : List α) (p : List Nat)
    (hp : p.Perm (List.range input.length)) : (picked input p).Perm input := by
  have h := List.Perm.filterMap (fun m => input[m]?) hp
  rw [show List.filterMap (fun m => input[m]?) (List.range input.length) = input from
    picked_range input] at h
  exact h

theorem getElem?_picked {α : Type} (input : List α) (p : List Nat)
    (h : ∀ m ∈ p, m < input.length) (k m : Nat) (hk : p[k]? = some m) :
    (picked input p)[k]? = input[m]? := by
  induction p generalizing k with
  | nil => simp at hk
  | cons a t ih =>
    have ha : a < input.length := h a (List.mem_cons_self _ _)
    have ht := ih (fun m hm => h m (List.mem_cons_of_mem _ hm))
    cases k with
    | zero =>
      simp at hk
      subst hk
      simp [picked, List.getElem?_eq_getElem ha]
    | succ k =>
      simp at hk
      have := ht k hk
      simp [picked, List.getElem?_eq_getElem ha] at this ⊢
      exact this

theorem picked_zip {α β : Type} (a : List α) (b : List β) (p : List Nat)
    (hlen : a.length = b.length) (h : ∀ m ∈ p, m < a.length) :
    picked (a.zip b) p = (picked a p).zip (picked b p) := by
  induction p with
  | nil => rfl
  | cons x t ih =>
    have hx : x < a.length := h x (List.mem_cons_self _ _)
    have hxb : x < b.length := by omega
    have ht := ih (fun m hm => h m (List.mem_cons_of_mem _ hm))
    have hz : x < (a.zip b).length := by simp [List.length_zip]; omega
    simp only [picked] at ht ⊢
    simp [List.filterMap_cons, List.getElem?_eq_getElem hx, List.getElem?_eq_getElem hxb,
      List.getElem?_eq_getElem hz, ht]


theorem is_sorted_iff (l : List Int) :
    thrust.is_sorted l = true ↔ l.Sorted (fun a b => a ≤ b) := by
  induction l with
  | nil => simp [thrust.is_sorted]
  | cons a t ih =>
    cases t with
    | nil => simp [thrust.is_sorted]
    | cons b rest =>
      rw [thrust.is_sorted, Bool.and_eq_true, decide_eq_true_eq, ih,
        List.sorted_cons (a := a)]
      constructor
      · rintro ⟨hab, hs⟩
        refine ⟨?_, hs⟩
        intro x hx
        rcases List.mem_cons.mp hx with rfl | hx
        · exact hab
        · exact le_trans hab ((List.sorted_cons.mp hs).1 x hx)
      · rintro ⟨ha, hs⟩
        exact ⟨ha b (List.mem_cons_self _ _), hs⟩

theorem sorted_insertionSort_fst {β : Type} (l : List (Int × β)) :
    (List.insertionSort (fun a b : Int × β => a.1 ≤ b.1) l).Sorted
      (fun a b : Int × β => a.1 ≤ b.1) := by
  haveI : IsTotal (Int × β) (fun a b => a.1 ≤ b.1) := ⟨fun a b => le_total a.1 b.1⟩
  haveI : IsTrans (Int × β) (fun a b => a.1 ≤ b.1) := ⟨fun _ _ _ hab hbc => le_trans hab hbc⟩
  exact List.sorted_insertionSort _ l

theorem mem_zip_picked (keys : List Int) (perm : List Nat)
    (h : ∀ m ∈ perm, m < keys.length) (e : Int × Nat)
    (he : e ∈ (picked keys perm).zip perm) : keys[e.2]? = some e.1 := by
  induction perm with
  | nil => simp [picked] at he
  | cons a t ih =>
    have ha : a < keys.length := h a (List.mem_cons_self _ _)
    simp only [picked, List.filterMap_cons, List.getElem?_eq_getElem ha, List.zip_cons_cons,
      List.mem_cons] at he
    rcases he with rfl | he
    · simp [List.getElem?_eq_getElem ha]
    · exact ih (fun m hm => h m (List.mem_cons_of_mem _ hm)) he

theorem picked_map_snd (keys : List Int) (s : List (Int × Nat))
    (h : ∀ e ∈ s, keys[e.2]? = some e.1) : picked keys (s.map Prod.snd) = s.map Prod.fst := by
  induction s with
  | nil => rfl
  | cons a t ih =>
    have ha := h a (List.mem_cons_self _ _)
    have ht := ih (fun e he => h e (List.mem_cons_of_mem _ he))
    simp only [picked] at ht ⊢
    simp [List.filterMap_cons, ha, ht]

theorem reordered_perm (keys : List Int) (perm : List Nat)
    (h : ∀ m ∈ perm, m < keys.length) : (reordered keys perm).Perm perm := by
  unfold reordered
  have hp := (List.perm_insertionSort (fun a b : Int × Nat => a.1 ≤ b.1)
    ((picked keys perm).zip perm)).map Prod.snd
  rw [List.map_snd_zip _ _ (le_of_eq (length_picked keys perm h).symm)] at hp
  exact hp

theorem picked_reordered (keys : List Int) (perm : List Nat)
    (h : ∀ m ∈ perm, m < keys.length) :
    picked keys (reordered keys perm) =
      (List.insertionSort (fun a b : Int × Nat => a.1 ≤ b.1)
        ((picked keys perm).zip perm)).map Prod.fst := by
  unfold reordered
  apply picked_map_snd
  intro e he
  exact mem_zip_picked keys perm h e ((List.mem_insertionSort _).mp he)

theorem sorted_picked_reordered (keys : List Int) (perm : List Nat)
    (h : ∀ m ∈ perm, m < keys.length) :
    (picked keys (reordered keys perm)).Sorted (fun a b => a ≤ b) := by
  rw [picked_reordered keys perm h]
  unfold List.Sorted
  rw [List.pairwise_map]
  exact sorted_insertionSort_fst _

theorem update_permutation_eq (keys : List Int) (perm : List Nat)
    (hlen : perm.length = keys.length) (h : ∀ m ∈ perm, m < keys.length) :
    update_permutation keys perm = some (reordered keys perm) := by
  have hg := gather_eq perm keys (List.replicate keys.length 0) h (by simp [hlen])
  simp only [update_permutation, hg, Option.bind_eq_bind, Option.some_bind,
    thrust.stable_sort_by_key]
  rw [if_pos (le_of_eq (length_picked keys perm h))]
  simp [reordered, length_picked keys perm h]

theorem apply_permutation_eq {T : Type} (keys : List T) (perm : List Nat)
    (hlen : perm.length = keys.length) (h : ∀ m ∈ perm, m < keys.length) :
    apply_permutation keys perm = some (picked keys perm) := by
  unfold apply_permutation
  exact gather_eq perm keys keys h hlen

theorem perm_range_bound {p : List Nat} {n : Nat} (hp : p.Perm (List.range n)) :
    p.length = n ∧ ∀ m ∈ p, m < n :=
  ⟨by rw [hp.length_eq, List.length_range], fun m hm => List.mem_range.mp (hp.mem_iff.mp hm)⟩

theorem sorting_permutation_perm (col_ids row_ids : List Int)
    (hlen : row_ids.length = col_ids.length) :
    (sorting_permutation col_ids row_ids).Perm (List.range row_ids.length) := by
  unfold sorting_permutation thrust.sequence
  have h1 : (reordered col_ids (List.range row_ids.length)).Perm (List.range row_ids.length) :=
    reordered_perm col_ids _ (fun m hm => by rw [← hlen]; exact List.mem_range.mp hm)
  exact (reordered_perm row_ids _ (perm_range_bound h1).2).trans h1

/-- The closed form of `coo_sorting` on arrays of equal length: the three arrays
are read through `sorting_permutation`, and the closing assertion holds. -/
theorem coo_sorting_eq {W : Type} (col_ids row_ids : List Int) (data : List W)
    (hrc : row_ids.length = col_ids.length) (hrd : row_ids.length = data.length) :
    coo_sorting col_ids row_ids data =
      some (picked col_ids (sorting_permutation col_ids row_ids),
        picked row_ids (sorting_permutation col_ids row_ids),
        picked data (sorting_permutation col_ids row_ids)) := by
  have h0 : ∀ m ∈ List.range row_ids.length, m < col_ids.length :=
    fun m hm => by rw [← hrc]; exact List.mem_range.mp hm
  have h1 : (reordered col_ids (List.range row_ids.length)).Perm (List.range row_ids.length) :=
    reordered_perm col_ids _ h0
  have b1 := perm_range_bound h1
  have h2 := sorting_permutation_perm col_ids row_ids hrc
  have b2 := perm_range_bound h2
  unfold coo_sorting
  rw [if_pos ⟨hrc, hrd⟩]
  simp only [thrust.sequence, Option.bind_eq_bind]
  rw [update_permutation_eq col_ids _ (by simp [hrc]) h0]
  simp only [Option.some_bind]
  rw [update_permutation_eq row_ids _ b1.1 b1.2]
  simp only [Option.some_bind]
  have e2 : reordered row_ids (reordered col_ids (List.range row_ids.length))
      = sorting_permutation col_ids row_ids := rfl
  rw [e2]
  rw [apply_permutation_eq col_ids _ (by rw [b2.1, hrc]) (fun m hm => by rw [← hrc]; exact b2.2 m hm)]
  simp only [Option.some_bind]
  rw [apply_permutation_eq row_ids _ b2.1 b2.2]
  simp only [Option.some_bind]
  rw [apply_permutation_eq data _ (by rw [b2.1, hrd]) (fun m hm => by rw [← hrd]; exact b2.2 m hm)]
  simp only [Option.some_bind]
  have hs : thrust.is_sorted (picked row_ids (sorting_permutation col_ids row_ids)) = true := by
    rw [is_sorted_iff]
    exact sorted_picked_reordered row_ids _ b1.2
  rw [if_pos hs]

/-! ## Claims on `coo_sorting` -/

/-- C4: for every equal-length (col_ids, row_ids, data) input `coo_sorting`
returns, so its closing assertion `thrust::is_sorted(row_ids)` does not fail,
and the row_ids array it leaves is non-decreasing. -/
theorem coo_sorting_row_ids_sorted {W : Type} (col_ids row_ids : List Int) (data : List W)
    (hrc : row_ids.length = col_ids.length) (hrd : row_ids.length = data.length) :
    ∃ out, coo_sorting col_ids row_ids data = some out ∧
      thrust.is_sorted out.2.1 = true ∧ out.2.1.Sorted (fun a b => a ≤ b) := by
  have h1 : (reordered col_ids (List.range row_ids.length)).Perm (List.range row_ids.length) :=
    reordered_perm col_ids _ (fun m hm => by rw [← hrc]; exact List.mem_range.mp hm)
  have hs : (picked row_ids (sorting_permutation col_ids row_ids)).Sorted (fun a b => a ≤ b) :=
    sorted_picked_reordered row_ids _ (perm_range_bound h1).2
  exact ⟨_, coo_sorting_eq col_ids row_ids data hrc hrd, (is_sorted_iff _).mpr hs, hs⟩

/-- C4, witness: four entries in the rows 1, 0, 1, 0. -/
theorem coo_sorting_row_ids_sorted_witness :
    ([1, 0, 1, 0] : List Int).length = ([3, 1, 2, 0] : List Int).length ∧
    ([1, 0, 1, 0] : List Int).length = ([10, 20, 30, 40] : List Int).length ∧
    ∃ out, coo_sorting [3, 1, 2, 0] [1, 0, 1, 0] [(10 : Int), 20, 30, 40] = some out ∧
      thrust.is_sorted out.2.1 = true ∧ out.2.1.Sorted (fun a b => a ≤ b) :=
  ⟨rfl, rfl, coo_sorting_row_ids_sorted [3, 1, 2, 0] [1, 0, 1, 0] [10, 20, 30, 40] rfl rfl⟩

/-- C5: for every equal-length input with `E` entries, `coo_sorting` returns
arrays of length `E` and there is a permutation `p` of `[0, E)` such that, for
every `k < E`, row_out[k] = row_in[p[k]], col_out[k] = col_in[p[k]] and
data_out[k] = data_in[p[k]]; hence the (row, col, weight) triples of the result
are a rearrangement of those of the input. -/
theorem coo_sorting_one_permutation {W : Type} (col_ids row_ids : List Int) (data : List W)
    (hrc : row_ids.length = col_ids.length) (hrd : row_ids.length = data.length) :
    ∃ (out : List Int × List Int × List W) (p : List Nat), coo_sorting col_ids row_ids data = some out ∧
      p.Perm (List.range row_ids.length) ∧
      out.1.length = row_ids.length ∧ out.2.1.length = row_ids.length ∧
      out.2.2.length = row_ids.length ∧
      (∀ k, k < row_ids.length → ∃ m, m < row_ids.length ∧ p[k]? = some m ∧
        out.2.1[k]? = row_ids[m]? ∧ out.1[k]? = col_ids[m]? ∧ out.2.2[k]? = data[m]?) ∧
      (entries (out.2.1, out.1, out.2.2)).Perm (entries (row_ids, col_ids, data)) := by
  have hp := sorting_permutation_perm col_ids row_ids hrc
  have b := perm_range_bound hp
  have bc : ∀ m ∈ sorting_permutation col_ids row_ids, m < col_ids.length :=
    fun m hm => by rw [← hrc]; exact b.2 m hm
  have bd : ∀ m ∈ sorting_permutation col_ids row_ids, m < data.length :=
    fun m hm => by rw [← hrd]; exact b.2 m hm
  refine ⟨_, sorting_permutation col_ids row_ids, coo_sorting_eq col_ids row_ids data hrc hrd,
    hp, ?_, ?_, ?_, ?_, ?_⟩
  · rw [length_picked col_ids _ bc, b.1]
  · rw [length_picked row_ids _ b.2, b.1]
  · rw [length_picked data _ bd, b.1]
  · intro k hk
    have hk2 : k < (sorting_permutation col_ids row_ids).length := by rw [b.1]; exact hk
    refine ⟨(sorting_permutation col_ids row_ids)[k], b.2 _ (List.getElem_mem _),
      List.getElem?_eq_getElem hk2, ?_, ?_, ?_⟩
    · exact getElem?_picked row_ids _ b.2 k _ (List.getElem?_eq_getElem hk2)
    · exact getElem?_picked col_ids _ bc k _ (List.getElem?_eq_getElem hk2)
    · exact getElem?_picked data _ bd k _ (List.getElem?_eq_getElem hk2)
  · have hcd : col_ids.length = data.length := by omega
    have hz : (col_ids.zip data).length = row_ids.length := by
      simp [List.length_zip]; omega
    have hzz : ((row_ids.zip (col_ids.zip data))).length = row_ids.length := by
      simp [List.length_zip]; omega
    show ((picked row_ids _).zip ((picked col_ids _).zip (picked data _))).Perm
      (row_ids.zip (col_ids.zip data))
    rw [← picked_zip col_ids data _ hcd bc, ← picked_zip row_ids (col_ids.zip data) _ hz.symm b.2]
    apply picked_perm
    rw [hzz]
    exact hp

/-- C5, witness: four entries in the rows 1, 0, 1, 0. -/
theorem coo_sorting_one_permutation_witness :
    ([1, 0, 1, 0] : List Int).length = ([3, 1, 2, 0] : List Int).length ∧
    ([1, 0, 1, 0] : List Int).length = ([10, 20, 30, 40] : List Int).length ∧
    ∃ (out : List Int × List Int × List Int) (p : List Nat), coo_sorting [3, 1, 2, 0] [1, 0, 1, 0] [(10 : Int), 20, 30, 40] = some out ∧
      p.Perm (List.range ([1, 0, 1, 0] : List Int).length) ∧
      out.1.length = ([1, 0, 1, 0] : List Int).length ∧
      out.2.1.length = ([1, 0, 1, 0] : List Int).length ∧
      out.2.2.length = ([1, 0, 1, 0] : List Int).length ∧
      (∀ k, k < ([1, 0, 1, 0] : List Int).length → ∃ m, m < ([1, 0, 1, 0] : List Int).length ∧
        p[k]? = some m ∧ out.2.1[k]? = ([1, 0, 1, 0] : List Int)[m]? ∧
        out.1[k]? = ([3, 1, 2, 0] : List Int)[m]? ∧
        out.2.2[k]? = ([10, 20, 30, 40] : List Int)[m]?) ∧
      (entries (out.2.1, out.1, out.2.2)).Perm
        (entries ([1, 0, 1, 0], [3, 1, 2, 0], [(10 : Int), 20, 30, 40])) :=
  ⟨rfl, rfl, coo_sorting_one_permutation [3, 1, 2, 0] [1, 0, 1, 0] [10, 20, 30, 40] rfl rfl⟩

/-! ## Lemmas: `max_element` and `dCOO::init` -/

theorem int_wrap_eq (x : Int) (hlo : INT_MIN ≤ x) (hhi : x ≤ INT_MAX) : int_wrap x = x := by
  unfold int_wrap
  unfold INT_MIN at hlo
  unfold INT_MAX at hhi
  omega

theorem foldl_max_spec (xs : List Int) (x : Int) :
    (xs.foldl max x ∈ x :: xs) ∧ ∀ y ∈ x :: xs, y ≤ xs.foldl max x := by
  induction xs generalizing x with
  | nil => simp
  | cons a t ih =>
    obtain ⟨hm, hle⟩ := ih (max x a)
    rw [List.foldl_cons]
    constructor
    · rcases List.mem_cons.mp hm with h | h
      · rw [h]
        rcases max_choice x a with hx | ha
        · rw [hx]; exact List.mem_cons_self _ _
        · rw [ha]; exact List.mem_cons_of_mem _ (List.mem_cons_self _ _)
      · exact List.mem_cons_of_mem _ (List.mem_cons_of_mem _ h)
    · intro y hy
      have hmax := hle (max x a) (List.mem_cons_self _ _)
      rcases List.mem_cons.mp hy with rfl | hy
      · exact le_trans (le_max_left _ _) hmax
      · rcases List.mem_cons.mp hy with rfl | hy
        · exact le_trans (le_max_right _ _) hmax
        · exact hle y (List.mem_cons_of_mem _ hy)

theorem max_element_spec (l : List Int) (hne : l ≠ []) :
    ∃ m, thrust.max_element l = some m ∧ m ∈ l ∧ ∀ x ∈ l, x ≤ m := by
  cases l with
  | nil => exact absurd rfl hne
  | cons x xs => exact ⟨_, rfl, (foldl_max_spec xs x).1, (foldl_max_spec xs x).2⟩

/-- The closed form of `dCOO::init` on non-empty arrays of equal length whose
largest column and row index are `mc` and `mr`. -/
theorem init_eq {W : Type} (self : dCOO W) (col_id row_id : List Int) (data : List W)
    (hc : data.length = col_id.length) (hr : data.length = row_id.length) (mc mr : Int)
    (hmc : thrust.max_element col_id = some mc) (hmr : thrust.max_element row_id = some mr) :
    dCOO.init self col_id row_id data =
      if (if self.cols_ = 0 then int_wrap (mc + 1) else self.cols_) > mc then
        if (if self.rows_ = 0 then int_wrap (mr + 1) else self.rows_) > mr then
          some { rows_ := if self.rows_ = 0 then int_wrap (mr + 1) else self.rows_,
                 cols_ := if self.cols_ = 0 then int_wrap (mc + 1) else self.cols_,
                 data := data, row_ids := row_id, col_ids := col_id,
                 is_sorted := self.is_sorted }
        else none
      else none := by
  unfold dCOO.init
  rw [if_pos ⟨hc, hr⟩]
  by_cases h1 : self.cols_ = 0 <;> by_cases h2 : self.rows_ = 0 <;>
    simp [h1, h2, hmc, hmr]

/-! ## Claims on the construction of a `dCOO` -/

/-- C8, as the code behaves: for every non-empty input of equal lengths whose
row and column indices are `int` values below `INT_MAX` (so that the largest
index plus one is an `int`), construction with R = 0 and C = 0, and likewise
the constructor that takes no sizes, succeeds, and the matrix it returns has
rows() = mr + 1 and cols() = mc + 1, where mr and mc are the largest element of
row_ids and of col_ids. -/
theorem construct_infers_sizes {W : Type} (col_id row_id : List Int) (data : List W)
    (hne : data ≠ []) (hc : data.length = col_id.length) (hr : data.length = row_id.length)
    (hcol : ∀ x ∈ col_id, INT_MIN ≤ x ∧ x < INT_MAX)
    (hrow : ∀ x ∈ row_id, INT_MIN ≤ x ∧ x < INT_MAX) :
    ∃ (A : dCOO W) (mr mc : Int),
      dCOO.construct 0 0 col_id row_id data = some A ∧
      dCOO.construct_no_sizes col_id row_id data = some A ∧
      (mr ∈ row_id ∧ ∀ x ∈ row_id, x ≤ mr) ∧ (mc ∈ col_id ∧ ∀ x ∈ col_id, x ≤ mc) ∧
      A.rows = mr + 1 ∧ A.cols = mc + 1 := by
  have hcne : col_id ≠ [] := fun h => hne (List.length_eq_zero.mp (by rw [hc, h]; rfl))
  have hrne : row_id ≠ [] := fun h => hne (List.length_eq_zero.mp (by rw [hr, h]; rfl))
  obtain ⟨mc, hmc, hmcm, hmcle⟩ := max_element_spec col_id hcne
  obtain ⟨mr, hmr, hmrm, hmrle⟩ := max_element_spec row_id hrne
  have hwc : int_wrap (mc + 1) = mc + 1 :=
    int_wrap_eq _ (by have := (hcol mc hmcm).1; omega)
      (by have := (hcol mc hmcm).2; unfold INT_MAX at *; omega)
  have hwr : int_wrap (mr + 1) = mr + 1 :=
    int_wrap_eq _ (by have := (hrow mr hmrm).1; omega)
      (by have := (hrow mr hmrm).2; unfold INT_MAX at *; omega)
  have h := init_eq (W := W) {} col_id row_id data hc hr mc mr hmc hmr
  simp only [if_true, gt_iff_lt, hwc, hwr, lt_add_one] at h
  exact ⟨_, mr, mc, h, h, ⟨hmrm, hmrle⟩, ⟨hmcm, hmcle⟩, rfl, rfl⟩

/-- C8, witness, the example of the specification: rows = [0,0,1],
cols = [1,2,2], weights = [1,2,3] with R = 0 and C = 0 gives rows() = 2 and
cols() = 3. -/
theorem construct_infers_sizes_witness :
    ([1, 2, 3] : List ℚ) ≠ [] ∧
    ([1, 2, 3] : List ℚ).length = ([1, 2, 2] : List Int).length ∧
    ([1, 2, 3] : List ℚ).length = ([0, 0, 1] : List Int).length ∧
    (∀ x ∈ ([1, 2, 2] : List Int), INT_MIN ≤ x ∧ x < INT_MAX) ∧
    (∀ x ∈ ([0, 0, 1] : List Int), INT_MIN ≤ x ∧ x < INT_MAX) ∧
    ∃ A : dCOO ℚ, dCOO.construct 0 0 [1, 2, 2] [0, 0, 1] [1, 2, 3] = some A ∧
      dCOO.construct_no_sizes [1, 2, 2] [0, 0, 1] [1, 2, 3] = some A ∧
      A.rows = 2 ∧ A.cols = 3 := by
  have hcol : ∀ x ∈ ([1, 2, 2] : List Int), INT_MIN ≤ x ∧ x < INT_MAX := by decide
  have hrow : ∀ x ∈ ([0, 0, 1] : List Int), INT_MIN ≤ x ∧ x < INT_MAX := by decide
  obtain ⟨A, mr, mc, h1, h2, ⟨hmr, hmrle⟩, ⟨hmc, hmcle⟩, hrows, hcols⟩ :=
    construct_infers_sizes [1, 2, 2] [0, 0, 1] ([1, 2, 3] : List ℚ) (by simp) rfl rfl hcol hrow
  refine ⟨by simp, rfl, rfl, hcol, hrow, A, h1, h2, ?_, ?_⟩
  · have h1le := hmrle 1 (by simp)
    have : mr = 0 ∨ mr = 1 := by simpa using hmr
    rw [hrows]; omega
  · have h2le := hmcle 2 (by simp)
    have : mc = 1 ∨ mc = 2 := by simpa using hmc
    rw [hcols]; omega

/-- C8, counterexample to the claim as stated: the one entry (0, 2147483647, 1)
is a non-empty input of equal lengths, and with R = 0 and C = 0 the inferred
column count `max + 1` leaves the range of `int`: `cols_` becomes `INT_MIN`,
the assertion `cols_ > max` fails and no matrix is returned. -/
theorem construct_infers_sizes_overflow_counterexample :
    ([1] : List ℚ) ≠ [] ∧
    ([1] : List ℚ).length = ([2147483647] : List Int).length ∧
    ([1] : List ℚ).length = ([0] : List Int).length ∧
    thrust.max_element [2147483647] = some INT_MAX ∧
    int_wrap (INT_MAX + 1) = INT_MIN ∧
    dCOO.construct 0 0 [2147483647] [0] ([1] : List ℚ) = none ∧
    dCOO.construct_no_sizes [2147483647] [0] ([1] : List ℚ) = none := by
  refine ⟨by simp, rfl, rfl, by decide, by decide, by decide, by decide⟩

/-- C9: for every non-empty input of equal lengths and every supplied nonzero R
and C, construction fails if and only if R <= x for some element x of row_ids
or C <= x for some element x of col_ids (that is, R <= max(row_ids) or
C <= max(col_ids)); when it succeeds, rows() = R and cols() = C as supplied. -/
theorem construct_checks_sizes {W : Type} (R C : Int) (col_id row_id : List Int)
    (data : List W) (hne : data ≠ []) (hc : data.length = col_id.length)
    (hr : data.length = row_id.length) (hR : R ≠ 0) (hC : C ≠ 0) :
    (dCOO.construct R C col_id row_id data = none ↔
      ((∃ x ∈ row_id, R ≤ x) ∨ (∃ x ∈ col_id, C ≤ x))) ∧
    (∀ A, dCOO.construct R C col_id row_id data = some A → A.rows = R ∧ A.cols = C) := by
  have hcne : col_id ≠ [] := fun h => hne (List.length_eq_zero.mp (by rw [hc, h]; rfl))
  have hrne : row_id ≠ [] := fun h => hne (List.length_eq_zero.mp (by rw [hr, h]; rfl))
  obtain ⟨mc, hmc, hmcm, hmcle⟩ := max_element_spec col_id hcne
  obtain ⟨mr, hmr, hmrm, hmrle⟩ := max_element_spec row_id hrne
  have h := init_eq (W := W) { rows_ := R, cols_ := C } col_id row_id data hc hr mc mr hmc hmr
  simp only [if_neg hR, if_neg hC, gt_iff_lt] at h
  have hrow : (∃ x ∈ row_id, R ≤ x) ↔ R ≤ mr :=
    ⟨fun ⟨x, hx, hRx⟩ => le_trans hRx (hmrle x hx), fun hle => ⟨mr, hmrm, hle⟩⟩
  have hcol : (∃ x ∈ col_id, C ≤ x) ↔ C ≤ mc :=
    ⟨fun ⟨x, hx, hCx⟩ => le_trans hCx (hmcle x hx), fun hle => ⟨mc, hmcm, hle⟩⟩
  unfold dCOO.construct
  rw [h, hrow, hcol]
  by_cases h1 : mc < C <;> by_cases h2 : mr < R
  · rw [if_pos h1, if_pos h2]
    refine ⟨⟨fun hn => by simp at hn, fun ho => by omega⟩, ?_⟩
    intro A hA
    simp only [Option.some.injEq] at hA
    subst hA
    exact ⟨rfl, rfl⟩
  · rw [if_pos h1, if_neg h2]
    exact ⟨⟨fun _ => Or.inl (by omega), fun _ => rfl⟩, fun A hA => by simp at hA⟩
  · rw [if_neg h1]
    exact ⟨⟨fun _ => Or.inr (by omega), fun _ => rfl⟩, fun A hA => by simp at hA⟩
  · rw [if_neg h1]
    exact ⟨⟨fun _ => Or.inr (by omega), fun _ => rfl⟩, fun A hA => by simp at hA⟩

/-- C9, witness: the example of the specification with R = 2 and C = 2, one
too small for the column index 2. -/
theorem construct_checks_sizes_witness :
    ([1, 2, 3] : List ℚ) ≠ [] ∧
    ([1, 2, 3] : List ℚ).length = ([1, 2, 2] : List Int).length ∧
    ([1, 2, 3] : List ℚ).length = ([0, 0, 1] : List Int).length ∧
    (2 : Int) ≠ 0 ∧
    ((dCOO.construct 2 2 [1, 2, 2] [0, 0, 1] ([1, 2, 3] : List ℚ) = none ↔
      ((∃ x ∈ ([0, 0, 1] : List Int), (2 : Int) ≤ x) ∨
        (∃ x ∈ ([1, 2, 2] : List Int), (2 : Int) ≤ x))) ∧
    (∀ A, dCOO.construct 2 2 [1, 2, 2] [0, 0, 1] ([1, 2, 3] : List ℚ) = some A →
      A.rows = 2 ∧ A.cols = 2)) :=
  ⟨by simp, rfl, rfl, by decide,
    construct_checks_sizes 2 2 [1, 2, 2] [0, 0, 1] [1, 2, 3] (by simp) rfl rfl
      (by decide) (by decide)⟩

/-- C10: every `dCOO` that a constructor returns satisfies the representation
invariant: row_ids, col_ids and data all have length edges(), and for every
`e < edges()` row_ids[e] < rows() and col_ids[e] < cols(); and construction
from sequences of differing lengths fails. -/
theorem construct_invariant {W : Type} (R C : Int) (col_id row_id : List Int)
    (data : List W) :
    (∀ A, (dCOO.construct R C col_id row_id data = some A ∨
          dCOO.construct_no_sizes col_id row_id data = some A ∨
          dCOO.construct_default = A) →
      A.row_ids.length = A.edges ∧ A.col_ids.length = A.edges ∧ A.data.length = A.edges ∧
      ∀ e, e < A.edges → ∃ r c, A.row_ids[e]? = some r ∧ A.col_ids[e]? = some c ∧
        r < A.rows ∧ c < A.cols) ∧
    (¬ (data.length = col_id.length ∧ data.length = row_id.length) →
      dCOO.construct R C col_id row_id data = none ∧
      dCOO.construct_no_sizes col_id row_id data = none) := by
  have key : ∀ (self : dCOO W) (A : dCOO W), dCOO.init self col_id row_id data = some A →
      A.row_ids.length = A.edges ∧ A.col_ids.length = A.edges ∧ A.data.length = A.edges ∧
      ∀ e, e < A.edges → ∃ r c, A.row_ids[e]? = some r ∧ A.col_ids[e]? = some c ∧
        r < A.rows ∧ c < A.cols := by
    intro self A hA
    by_cases hlen : data.length = col_id.length ∧ data.length = row_id.length
    · obtain ⟨hc, hr⟩ := hlen
      by_cases hne : data = []
      · have hce : col_id = [] := List.length_eq_zero.mp (by rw [← hc, hne]; rfl)
        rw [hne, hce] at hA
        by_cases h0 : self.cols_ = 0 <;>
          simp [dCOO.init, thrust.max_element, h0] at hA
      · have hcne : col_id ≠ [] := fun h => hne (List.length_eq_zero.mp (by rw [hc, h]; rfl))
        have hrne : row_id ≠ [] := fun h => hne (List.length_eq_zero.mp (by rw [hr, h]; rfl))
        obtain ⟨mc, hmc, hmcm, hmcle⟩ := max_element_spec col_id hcne
        obtain ⟨mr, hmr, hmrm, hmrle⟩ := max_element_spec row_id hrne
        rw [init_eq self col_id row_id data hc hr mc mr hmc hmr] at hA
        by_cases h1 : (if self.cols_ = 0 then int_wrap (mc + 1) else self.cols_) > mc
        · by_cases h2 : (if self.rows_ = 0 then int_wrap (mr + 1) else self.rows_) > mr
          · rw [if_pos h1, if_pos h2, Option.some.injEq] at hA
            subst hA
            refine ⟨rfl, by simp [dCOO.edges]; omega, by simp [dCOO.edges]; omega, ?_⟩
            intro e he
            simp only [dCOO.edges] at he
            have hec : e < col_id.length := by omega
            refine ⟨row_id[e], col_id[e], List.getElem?_eq_getElem he,
              List.getElem?_eq_getElem hec, ?_, ?_⟩
            · exact lt_of_le_of_lt (hmrle _ (List.getElem_mem _)) h2
            · exact lt_of_le_of_lt (hmcle _ (List.getElem_mem _)) h1
          · rw [if_pos h1, if_neg h2] at hA
            exact absurd hA (by simp)
        · rw [if_neg h1] at hA
          exact absurd hA (by simp)
    · simp [dCOO.init, hlen] at hA
  refine ⟨?_, ?_⟩
  · intro A hA
    rcases hA with hA | hA | hA
    · exact key _ A hA
    · exact key _ A hA
    · subst hA
      simp [dCOO.construct_default, dCOO.edges]
  · intro hlen
    simp [dCOO.construct, dCOO.construct_no_sizes, dCOO.init, hlen]

/-- C10, witness: the matrix built from rows = [0,0,1], cols = [1,2,2],
weights = [1,2,3] with R = 0 and C = 0. -/
theorem construct_invariant_witness :
    dCOO.construct 0 0 [1, 2, 2] [0, 0, 1] ([1, 2, 3] : List ℚ) =
      some { rows_ := 2, cols_ := 3, data := [1, 2, 3], row_ids := [0, 0, 1],
             col_ids := [1, 2, 2], is_sorted := false } ∧
    (∀ e, e < 3 → ∃ r c, ([0, 0, 1] : List Int)[e]? = some r ∧
      ([1, 2, 2] : List Int)[e]? = some c ∧ r < 2 ∧ c < 3) := by
  have hA : dCOO.construct 0 0 [1, 2, 2] [0, 0, 1] ([1, 2, 3] : List ℚ) =
      some { rows_ := 2, cols_ := 3, data := [1, 2, 3], row_ids := [0, 0, 1],
             col_ids := [1, 2, 2], is_sorted := false } := by decide
  exact ⟨hA, ((construct_invariant 0 0 [1, 2, 2] [0, 0, 1] ([1, 2, 3] : List ℚ)).1 _
    (Or.inl hA)).2.2.2⟩

/-! ## `compute_offsets` on a row array with an empty row -/

/-- C3, the code at i = [0, 2, 3] (row 1 has no entry): the table returned is
[0, 1, 2, 0, 3].  The first entry of row 2 is at index 1 and that of row 3 at
index 2, but offsets[2] = 2 and offsets[3] = 0, and the table is not
non-decreasing. -/
theorem compute_offsets_skips_empty_row :
    thrust.is_sorted [0, 2, 3] = true ∧
    compute_offsets [0, 2, 3] = some [0, 1, 2, 0, 3] ∧
    ([0, 2, 3] : List Int)[1]? = some 2 ∧ ([0, 1, 2, 0, 3] : List Int)[2]? ≠ some 1 ∧
    ([0, 2, 3] : List Int)[2]? = some 3 ∧ ([0, 1, 2, 0, 3] : List Int)[3]? ≠ some 2 ∧
    ¬ ([0, 1, 2, 0, 3] : List Int).Sorted (fun a b => a ≤ b) := by
  refine ⟨by decide, by decide, by decide, by decide, by decide, by decide, by decide⟩

/-- C2, the code at rows = [3, 0, 2], cols = [1, 2, 0], weights = [5, 6, 7]:
`coo_sorting` leaves the rows [0, 2, 3] and `compute_offsets` of them is
[0, 1, 2, 0, 3]; the entry at index 1 is in row 2 and offsets[2] = 2 > 1, and
the entry at index 2 is in row 3 and offsets[4] = 3 but offsets[3] = 0. -/
theorem coo_sorting_then_compute_offsets_empty_row :
    coo_sorting [1, 2, 0] [3, 0, 2] [(5 : Int), 6, 7] = some ([2, 0, 1], [0, 2, 3], [6, 7, 5]) ∧
    compute_offsets [0, 2, 3] = some [0, 1, 2, 0, 3] ∧
    ([0, 2, 3] : List Int)[1]? = some 2 ∧ ([0, 1, 2, 0, 3] : List Int)[2]? = some 2 ∧
    ¬ ((2 : Int) ≤ 1) := by
  refine ⟨by decide, by decide, by decide, by decide, by decide⟩

/-! ## Lemmas: `get_lb` -/

theorem foldl_add_compute_lb (costs : List ℚ) (init : ℚ) :
    costs.foldl (fun acc x => acc + compute_lb x) init = init + (costs.map compute_lb).sum := by
  induction costs generalizing init with
  | nil => simp
  | cons a t ih => rw [List.foldl_cons, ih, List.map_cons, List.sum_cons, add_assoc]

theorem get_lb_eq_sum_map (costs : List ℚ) : get_lb costs = (costs.map compute_lb).sum := by
  unfold get_lb thrust.transform_reduce
  rw [foldl_add_compute_lb, zero_add]

theorem compute_lb_le (val : ℚ) : compute_lb val ≤ val ∧ compute_lb val ≤ 0 := by
  unfold compute_lb
  by_cases h : val < 0
  · rw [if_pos h]; exact ⟨le_refl _, le_of_lt h⟩
  · rw [if_neg h]; exact ⟨not_lt.mp h, le_refl _⟩

theorem get_lb_eq_sum_univ (costs : List ℚ) :
    get_lb costs = ∑ e : Fin costs.length, compute_lb (costs.get e) := by
  rw [get_lb_eq_sum_map, ← Fin.sum_univ_get']
  rfl

/-! ## Claims on `get_lb` -/

/-- C13: on exact (rational) costs, `get_lb costs` is at most the total cost of
every subset `S` of the edges, so it is at most the cost of every multicut
(whose cost is the total cost of the edges it cuts), the optimal one included. -/
theorem get_lb_le_cut_cost (costs : List ℚ) (S : Finset (Fin costs.length)) :
    get_lb costs ≤ ∑ e ∈ S, costs.get e := by
  rw [get_lb_eq_sum_univ]
  have hsplit := Finset.sum_sdiff (Finset.subset_univ S)
    (f := fun e : Fin costs.length => compute_lb (costs.get e))
  have hrest : ∑ e ∈ Finset.univ \ S, compute_lb (costs.get e) ≤ 0 :=
    Finset.sum_nonpos (fun e _ => (compute_lb_le _).2)
  have hS : ∑ e ∈ S, compute_lb (costs.get e) ≤ ∑ e ∈ S, costs.get e :=
    Finset.sum_le_sum (fun e _ => (compute_lb_le _).1)
  linarith

/-- C14: on exact (rational) costs, `get_lb costs` is the sum of the strictly
negative entries of `costs`; it is never positive, and it is 0 for the empty
array and for an array without a negative entry. -/
theorem get_lb_eq_negative_floor (costs : List ℚ) :
    get_lb costs = (costs.filter (fun c => decide (c < 0))).sum ∧
    get_lb costs ≤ 0 ∧
    get_lb [] = 0 ∧
    ((∀ c ∈ costs, 0 ≤ c) → get_lb costs = 0) := by
  have hsum : get_lb costs = (costs.filter (fun c => decide (c < 0))).sum := by
    rw [get_lb_eq_sum_map]
    induction costs with
    | nil => rfl
    | cons a t ih =>
      rw [List.map_cons, List.sum_cons, ih]
      by_cases h : a < 0
      · rw [List.filter_cons_of_pos (by simpa using h), List.sum_cons, compute_lb, if_pos h]
      · rw [List.filter_cons_of_neg (by simpa using h), compute_lb, if_neg h, zero_add]
  refine ⟨hsum, ?_, ?_, ?_⟩
  · rw [get_lb_eq_sum_univ]
    exact Finset.sum_nonpos (fun e _ => (compute_lb_le _).2)
  · rfl
  · intro hnn
    rw [hsum, List.filter_eq_nil_iff.mpr]
    · rfl
    · intro c hc
      simpa using hnn c hc

/-- C14, witness: the costs 3, 0, 1/2 hold no negative entry, and the costs
1, -2, 3, -1/2 have the negative entries -2 and -1/2. -/
theorem get_lb_eq_negative_floor_witness :
    (∀ c ∈ ([3, 0, 1 / 2] : List ℚ), 0 ≤ c) ∧ get_lb [3, 0, 1 / 2] = 0 ∧
    get_lb [1, -2, 3, -1 / 2] = -2 + -1 / 2 := by
  have h1 : ∀ c ∈ ([3, 0, 1 / 2] : List ℚ), 0 ≤ c := by
    intro c hc
    simp only [List.mem_cons, List.mem_singleton, List.not_mem_nil, or_false] at hc
    rcases hc with rfl | rfl | rfl <;> norm_num
  refine ⟨h1, (get_lb_eq_negative_floor [3, 0, 1 / 2]).2.2.2 h1, ?_⟩
  rw [(get_lb_eq_negative_floor [1, -2, 3, -1 / 2]).1]
  norm_num [List.filter]

/-! ## Further claims on the round trip and on construction -/

/-- C19: for every triple list in which every entry has row < col,
`to_directed (to_undirected x)` returns exactly `x`: the same three arrays,
entry for entry and in the same order. -/
theorem directed_of_undirected_exact {W : Type} [Zero W] (i j : List Int) (costs : List W)
    (hij : i.length = j.length) (hic : i.length = costs.length)
    (hlt : ∀ e ∈ entries (i, j, costs), e.1 < e.2.1) :
    ∃ u, to_undirected i j costs = some u ∧ to_directed u.1 u.2.1 u.2.2 = some (i, j, costs) := by
  refine ⟨_, to_undirected_eq i j costs hij hic, ?_⟩
  have h := directed_of_undirected_eq i j costs hij hic hlt
  unfold directed_of_undirected at h
  rw [to_undirected_eq i j costs hij hic] at h
  exact h

/-- C19, witness: the edges (0,1,5), (1,3,6) and (0,3,7), given out of order. -/
theorem directed_of_undirected_exact_witness :
    ([1, 0, 0] : List Int).length = ([3, 1, 3] : List Int).length ∧
    ([1, 0, 0] : List Int).length = ([6, 5, 7] : List Int).length ∧
    (∀ e ∈ entries ([1, 0, 0], [3, 1, 3], [(6 : Int), 5, 7]), e.1 < e.2.1) ∧
    ∃ u, to_undirected [1, 0, 0] [3, 1, 3] [(6 : Int), 5, 7] = some u ∧
      to_directed u.1 u.2.1 u.2.2 = some ([1, 0, 0], [3, 1, 3], [6, 5, 7]) :=
  ⟨rfl, rfl, by decide,
    directed_of_undirected_exact [1, 0, 0] [3, 1, 3] [6, 5, 7] rfl rfl (by decide)⟩

theorem init_some {W : Type} (self : dCOO W) (col_id row_id : List Int) (data : List W)
    (A : dCOO W) (hA : dCOO.init self col_id row_id data = some A) :
    A.row_ids = row_id ∧ A.col_ids = col_id ∧ A.data = data ∧
      A.is_sorted = self.is_sorted := by
  by_cases hlen : data.length = col_id.length ∧ data.length = row_id.length
  · obtain ⟨hc, hr⟩ := hlen
    by_cases hne : data = []
    · have hce : col_id = [] := List.length_eq_zero.mp (by rw [← hc, hne]; rfl)
      rw [hne, hce] at hA
      by_cases h0 : self.cols_ = 0 <;>
        simp [dCOO.init, thrust.max_element, h0] at hA
    · have hcne : col_id ≠ [] := fun h => hne (List.length_eq_zero.mp (by rw [hc, h]; rfl))
      have hrne : row_id ≠ [] := fun h => hne (List.length_eq_zero.mp (by rw [hr, h]; rfl))
      obtain ⟨mc, hmc, _, _⟩ := max_element_spec col_id hcne
      obtain ⟨mr, hmr, _, _⟩ := max_element_spec row_id hrne
      rw [init_eq self col_id row_id data hc hr mc mr hmc hmr] at hA
      by_cases h1 : (if self.cols_ = 0 then int_wrap (mc + 1) else self.cols_) > mc
      · by_cases h2 : (if self.rows_ = 0 then int_wrap (mr + 1) else self.rows_) > mr
        · rw [if_pos h1, if_pos h2, Option.some.injEq] at hA
          subst hA
          exact ⟨rfl, rfl, rfl, rfl⟩
        · rw [if_pos h1, if_neg h2] at hA
          exact absurd hA (by simp)
      · rw [if_neg h1] at hA
        exact absurd hA (by simp)
  · simp [dCOO.init, hlen] at hA

/-- The result of `dCOO::init` on empty sequences: the maximum of an empty
index sequence is dereferenced, whatever `rows_` and `cols_` are. -/
theorem init_empty {W : Type} (self : dCOO W) :
    dCOO.init self [] [] ([] : List W) = none := by
  by_cases h0 : self.cols_ = 0 <;> simp [dCOO.init, thrust.max_element, h0]

/-- C16: construction does not sort: whenever a constructor returns a matrix,
its row_ids, col_ids and data are the input sequences, element for element in
their original order, and sorted() is false. -/
theorem construct_keeps_order {W : Type} (R C : Int) (col_id row_id : List Int)
    (data : List W) (A : dCOO W)
    (hA : dCOO.construct R C col_id row_id data = some A ∨
      dCOO.construct_no_sizes col_id row_id data = some A) :
    A.row_ids = row_id ∧ A.col_ids = col_id ∧ A.data = data ∧ A.sorted = false := by
  rcases hA with hA | hA
  · exact init_some _ col_id row_id data A hA
  · exact init_some _ col_id row_id data A hA

/-- C16, witness: the rows 1, 0, 1 are stored as given, not as 0, 1, 1. -/
theorem construct_keeps_order_witness :
    ∃ A : dCOO ℚ, dCOO.construct 2 3 [2, 1, 0] [1, 0, 1] [5, 6, 7] = some A ∧
      A.row_ids = [1, 0, 1] ∧ A.col_ids = [2, 1, 0] ∧ A.data = [5, 6, 7] ∧
      A.sorted = false := by
  have hA : dCOO.construct 2 3 [2, 1, 0] [1, 0, 1] ([5, 6, 7] : List ℚ) =
      some { rows_ := 2, cols_ := 3, data := [5, 6, 7], row_ids := [1, 0, 1],
             col_ids := [2, 1, 0], is_sorted := false } := by decide
  exact ⟨_, hA, construct_keeps_order 2 3 [2, 1, 0] [1, 0, 1] [5, 6, 7] _ (Or.inl hA)⟩

/-- C15, the code on the empty graph: with empty row, column and weight
sequences every constructor call fails, whatever R and C are supplied (R = 0
and C = 0, positive sizes, or none), because `init` dereferences
`thrust::max_element` of the empty column sequence. -/
theorem construct_empty_fails {W : Type} (R C : Int) :
    dCOO.construct R C [] [] ([] : List W) = none ∧
    dCOO.construct_no_sizes [] [] ([] : List W) = none ∧
    thrust.max_element [] = none :=
  ⟨init_empty _, init_empty _, rfl⟩

/-! ## Lemmas: a stable sort by one key refines the order it finds -/

theorem pairwise_orderedInsert_refine {τ : Type} (keyf : τ → Int) (R : τ → τ → Prop)
    (x : τ) (l : List τ)
    (hl : l.Pairwise (fun a b => keyf a < keyf b ∨ (keyf a = keyf b ∧ R a b)))
    (hx : ∀ y ∈ l, R x y) :
    (List.orderedInsert (fun a b => keyf a ≤ keyf b) x l).Pairwise
      (fun a b => keyf a < keyf b ∨ (keyf a = keyf b ∧ R a b)) := by
  induction l with
  | nil => simp
  | cons y t ih =>
    rw [List.pairwise_cons] at hl
    obtain ⟨hy, ht⟩ := hl
    rw [List.orderedInsert]
    by_cases hxy : keyf x ≤ keyf y
    · rw [if_pos hxy]
      refine List.Pairwise.cons ?_ (List.Pairwise.cons hy ht)
      intro z hz
      have hRz := hx z hz
      have hyz : keyf y ≤ keyf z := by
        rcases List.mem_cons.mp hz with rfl | hz
        · exact le_refl _
        · rcases hy z hz with h | h
          · exact le_of_lt h
          · exact le_of_eq h.1
      rcases lt_or_eq_of_le (le_trans hxy hyz) with h | h
      · exact Or.inl h
      · exact Or.inr ⟨h, hRz⟩
    · rw [if_neg hxy]
      refine List.Pairwise.cons ?_ (ih ht (fun z hz => hx z (List.mem_cons_of_mem _ hz)))
      intro z hz
      rcases (List.mem_orderedInsert _).mp hz with rfl | hz
      · exact Or.inl (not_le.mp hxy)
      · exact hy z hz

theorem pairwise_insertionSort_refine {τ : Type} (keyf : τ → Int) (R : τ → τ → Prop)
    (l : List τ) (hl : l.Pairwise R) :
    (List.insertionSort (fun a b => keyf a ≤ keyf b) l).Pairwise
      (fun a b => keyf a < keyf b ∨ (keyf a = keyf b ∧ R a b)) := by
  induction l with
  | nil => simp
  | cons x t ih =>
    rw [List.pairwise_cons] at hl
    rw [List.insertionSort]
    apply pairwise_orderedInsert_refine keyf R x _ (ih hl.2)
    intro y hy
    exact hl.1 y ((List.mem_insertionSort _).mp hy)

theorem filter_orderedInsert {τ : Type} (keyf : τ → Int) (P : τ → Bool)
    (hP : ∀ a b, P a = true → P b = true → keyf a ≤ keyf b) (x : τ) (l : List τ) :
    (List.orderedInsert (fun a b => keyf a ≤ keyf b) x l).filter P = (x :: l).filter P := by
  induction l with
  | nil => simp
  | cons y t ih =>
    rw [List.orderedInsert]
    by_cases hxy : keyf x ≤ keyf y
    · rw [if_pos hxy]
    · rw [if_neg hxy]
      have hnot : ¬ (P x = true ∧ P y = true) := fun h => hxy (hP x y h.1 h.2)
      by_cases hpx : P x = true
      · have hpy : ¬ P y = true := fun h => hnot ⟨hpx, h⟩
        rw [List.filter_cons_of_neg hpy, ih, List.filter_cons_of_pos hpx,
          List.filter_cons_of_pos hpx, List.filter_cons_of_neg hpy]
      · by_cases hpy : P y = true
        · rw [List.filter_cons_of_pos hpy, ih, List.filter_cons_of_neg hpx,
            List.filter_cons_of_neg hpx, List.filter_cons_of_pos hpy]
        · rw [List.filter_cons_of_neg hpy, ih, List.filter_cons_of_neg hpx,
            List.filter_cons_of_neg hpx, List.filter_cons_of_neg hpy]

theorem filter_insertionSort {τ : Type} (keyf : τ → Int) (P : τ → Bool)
    (hP : ∀ a b, P a = true → P b = true → keyf a ≤ keyf b) (l : List τ) :
    (List.insertionSort (fun a b => keyf a ≤ keyf b) l).filter P = l.filter P := by
  induction l with
  | nil => rfl
  | cons x t ih =>
    rw [List.insertionSort, filter_orderedInsert keyf P hP]
    by_cases hpx : P x = true
    · rw [List.filter_cons_of_pos hpx, List.filter_cons_of_pos hpx, ih]
    · rw [List.filter_cons_of_neg hpx, List.filter_cons_of_neg hpx, ih]

/-- Two lists in lexicographic (row, col) order that hold, for every key
(row, col), the same entries in the same order are equal. -/
theorem eq_of_lex_sorted_of_with_keys {W : Type} (L L2 : List (Int × Int × W))
    (hs : L.Pairwise lex_le) (hs2 : L2.Pairwise lex_le)
    (hf : ∀ r c, with_keys r c L = with_keys r c L2) : L = L2 := by
  induction L generalizing L2 with
  | nil =>
    cases L2 with
    | nil => rfl
    | cons b t =>
      have h := hf b.1 b.2.1
      simp [with_keys] at h
  | cons a t ih =>
    cases L2 with
    | nil =>
      have h := hf a.1 a.2.1
      simp [with_keys] at h
    | cons b t2 =>
      rw [List.pairwise_cons] at hs hs2
      have hmem_b : b ∈ a :: t := by
        have h := hf b.1 b.2.1
        have hb : b ∈ with_keys b.1 b.2.1 (b :: t2) := by simp [with_keys]
        rw [← h] at hb
        exact (List.mem_filter.mp hb).1
      have hmem_a : a ∈ b :: t2 := by
        have h := hf a.1 a.2.1
        have ha : a ∈ with_keys a.1 a.2.1 (a :: t) := by simp [with_keys]
        rw [h] at ha
        exact (List.mem_filter.mp ha).1
      have hkey : a.1 = b.1 ∧ a.2.1 = b.2.1 := by
        rcases List.mem_cons.mp hmem_b with hba | hbt
        · rw [hba]; exact ⟨rfl, rfl⟩
        · rcases List.mem_cons.mp hmem_a with hab | hat
          · rw [hab]; exact ⟨rfl, rfl⟩
          · have h1 := hs.1 b hbt
            have h2 := hs2.1 a hat
            unfold lex_le at h1 h2
            omega
      have hab : a = b := by
        have h := hf a.1 a.2.1
        simp [with_keys, hkey.1, hkey.2] at h
        exact h.1
      subst hab
      congr 1
      apply ih t2 hs.2 hs2.2
      intro r c
      have h := hf r c
      unfold with_keys at h ⊢
      by_cases hp : (decide (a.1 = r) && decide (a.2.1 = c)) = true
      · simp only [List.filter_cons, hp, if_true, List.cons.injEq, true_and] at h
        exact h
      · simp only [List.filter_cons, hp, if_false] at h
        exact h

/-! ## Lemmas: `update_permutation` as a stable sort of the entries -/

theorem picked_cons {α : Type} (E : List α) (m : Nat) (ms : List Nat) (e : α)
    (h : E[m]? = some e) : picked E (m :: ms) = e :: picked E ms := by
  simp [picked, List.filterMap_cons, h]

theorem picked_orderedInsert {τ : Type} (keyf : τ → Int) (E : List τ)
    (z : Int × Nat) (e : τ) (hz : E[z.2]? = some e) (hk : keyf e = z.1)
    (T : List (Int × Nat)) (hT : ∀ y ∈ T, ∃ f, E[y.2]? = some f ∧ keyf f = y.1) :
    picked E ((List.orderedInsert (fun a b : Int × Nat => a.1 ≤ b.1) z T).map Prod.snd) =
      List.orderedInsert (fun a b => keyf a ≤ keyf b) e (picked E (T.map Prod.snd)) := by
  induction T with
  | nil =>
    simp only [List.orderedInsert, List.map_cons, List.map_nil]
    rw [picked_cons E z.2 [] e hz]
    rfl
  | cons y t ih =>
    obtain ⟨f, hf, hfk⟩ := hT y (List.mem_cons_self _ _)
    have ht := ih (fun w hw => hT w (List.mem_cons_of_mem _ hw))
    rw [List.map_cons, picked_cons E y.2 _ f hf, List.orderedInsert, List.orderedInsert]
    by_cases hzy : z.1 ≤ y.1
    · rw [if_pos hzy, if_pos (by rw [hk, hfk]; exact hzy), List.map_cons, List.map_cons,
        picked_cons E z.2 _ e hz, picked_cons E y.2 _ f hf]
    · rw [if_neg hzy, if_neg (by rw [hk, hfk]; exact hzy), List.map_cons,
        picked_cons E y.2 _ f hf, ht]

theorem picked_insertionSort {τ : Type} (keyf : τ → Int) (E : List τ)
    (S : List (Int × Nat)) (hS : ∀ y ∈ S, ∃ f, E[y.2]? = some f ∧ keyf f = y.1) :
    picked E ((List.insertionSort (fun a b : Int × Nat => a.1 ≤ b.1) S).map Prod.snd) =
      List.insertionSort (fun a b => keyf a ≤ keyf b) (picked E (S.map Prod.snd)) := by
  induction S with
  | nil => rfl
  | cons z t ih =>
    obtain ⟨e, he, hek⟩ := hS z (List.mem_cons_self _ _)
    have ht := ih (fun w hw => hS w (List.mem_cons_of_mem _ hw))
    rw [List.insertionSort, picked_orderedInsert keyf E z e he hek, ht, List.map_cons,
      picked_cons E z.2 _ e he, List.insertionSort]
    intro y hy
    exact hS y (List.mem_cons_of_mem _ ((List.mem_insertionSort _).mp hy))

/-- One `update_permutation` pass, seen on the entries: reading the entries
through the new permutation is a stable sort, by the pass's key, of the entries
read through the old one. -/
theorem picked_reordered_entries {τ : Type} (keyf : τ → Int) (E : List τ)
    (keys : List Int) (hkeys : keys = E.map keyf) (q : List Nat)
    (hq : ∀ m ∈ q, m < keys.length) :
    picked E (reordered keys q) =
      List.insertionSort (fun a b => keyf a ≤ keyf b) (picked E q) := by
  unfold reordered
  rw [picked_insertionSort keyf E]
  · rw [List.map_snd_zip _ _ (le_of_eq (length_picked keys q hq).symm)]
  · intro y hy
    have h := mem_zip_picked keys q hq y hy
    rw [hkeys, List.getElem?_map] at h
    cases hE : E[y.2]? with
    | none => rw [hE] at h; simp at h
    | some f =>
      rw [hE] at h
      simp only [Option.map_some', Option.some.injEq] at h
      exact ⟨f, rfl, h⟩

theorem entries_picked {W : Type} (a b : List Int) (c : List W) (p : List Nat)
    (hab : a.length = b.length) (hac : a.length = c.length) (hp : ∀ m ∈ p, m < a.length) :
    entries (picked a p, picked b p, picked c p) = picked (entries (a, b, c)) p := by
  have hz : (b.zip c).length = a.length := by simp [List.length_zip]; omega
  unfold entries
  simp only []
  rw [← picked_zip b c p (by omega) (fun m hm => by rw [← hab]; exact hp m hm),
    ← picked_zip a (b.zip c) p hz.symm hp]

/-- The entries `coo_sorting` returns are the input entries stably sorted by
column and then stably sorted by row. -/
theorem coo_sorting_entries {W : Type} (col_ids row_ids : List Int) (data : List W)
    (hrc : row_ids.length = col_ids.length) (hrd : row_ids.length = data.length) :
    ∃ out, coo_sorting col_ids row_ids data = some out ∧
      out.2.1.length = out.1.length ∧ out.2.1.length = out.2.2.length ∧
      entries (out.2.1, out.1, out.2.2) =
        List.insertionSort (fun a b : Int × Int × W => a.1 ≤ b.1)
          (List.insertionSort (fun a b : Int × Int × W => a.2.1 ≤ b.2.1)
            (entries (row_ids, col_ids, data))) := by
  have hp := sorting_permutation_perm col_ids row_ids hrc
  have b := perm_range_bound hp
  have bc : ∀ m ∈ sorting_permutation col_ids row_ids, m < col_ids.length :=
    fun m hm => by rw [← hrc]; exact b.2 m hm
  have bd : ∀ m ∈ sorting_permutation col_ids row_ids, m < data.length :=
    fun m hm => by rw [← hrd]; exact b.2 m hm
  have h0 : ∀ m ∈ List.range row_ids.length, m < col_ids.length :=
    fun m hm => by rw [← hrc]; exact List.mem_range.mp hm
  have h1 : (reordered col_ids (List.range row_ids.length)).Perm (List.range row_ids.length) :=
    reordered_perm col_ids _ h0
  have b1 := perm_range_bound h1
  obtain ⟨m1, m2, _⟩ := entries_maps row_ids col_ids data hrc hrd
  have hlenE : (entries (row_ids, col_ids, data)).length = row_ids.length :=
    entries_length row_ids col_ids data hrc hrd
  refine ⟨_, coo_sorting_eq col_ids row_ids data hrc hrd, ?_, ?_, ?_⟩
  · rw [length_picked row_ids _ b.2, length_picked col_ids _ bc]
  · rw [length_picked row_ids _ b.2, length_picked data _ bd]
  · show entries (picked row_ids _, picked col_ids _, picked data _) = _
    rw [entries_picked row_ids col_ids data _ hrc hrd b.2]
    unfold sorting_permutation thrust.sequence
    rw [picked_reordered_entries (fun e : Int × Int × W => e.1) _ row_ids m1.symm _ b1.2,
      picked_reordered_entries (fun e : Int × Int × W => e.2.1) _ col_ids m2.symm _ h0]
    rw [← hlenE, picked_range]

/-! ## Lemmas: what `coo_sorting` returns -/

theorem sorted_insertionSort_key {τ : Type} (keyf : τ → Int) (l : List τ) :
    (List.insertionSort (fun a b => keyf a ≤ keyf b) l).Pairwise
      (fun a b => keyf a ≤ keyf b) := by
  haveI : IsTotal τ (fun a b => keyf a ≤ keyf b) := ⟨fun a b => le_total (keyf a) (keyf b)⟩
  haveI : IsTrans τ (fun a b => keyf a ≤ keyf b) := ⟨fun _ _ _ hab hbc => le_trans hab hbc⟩
  exact List.sorted_insertionSort _ l

theorem with_keys_insertionSort_row {W : Type} (r c : Int) (l : List (Int × Int × W)) :
    with_keys r c (List.insertionSort (fun a b : Int × Int × W => a.1 ≤ b.1) l) =
      with_keys r c l := by
  unfold with_keys
  apply filter_insertionSort (fun e : Int × Int × W => e.1)
  intro a b ha hb
  simp only [Bool.and_eq_true, decide_eq_true_eq] at ha hb
  rw [ha.1, hb.1]

theorem with_keys_insertionSort_col {W : Type} (r c : Int) (l : List (Int × Int × W)) :
    with_keys r c (List.insertionSort (fun a b : Int × Int × W => a.2.1 ≤ b.2.1) l) =
      with_keys r c l := by
  unfold with_keys
  apply filter_insertionSort (fun e : Int × Int × W => e.2.1)
  intro a b ha hb
  simp only [Bool.and_eq_true, decide_eq_true_eq] at ha hb
  rw [ha.2, hb.2]

/-- On arrays of equal length `coo_sorting` returns the entries in
lexicographic (row, col) order, a rearrangement of the input entries in which
the entries of each key (row, col) keep their input order. -/
theorem coo_sorting_lex_sorted {W : Type} (col_ids row_ids : List Int) (data : List W)
    (hrc : row_ids.length = col_ids.length) (hrd : row_ids.length = data.length) :
    ∃ out, coo_sorting col_ids row_ids data = some out ∧
      out.2.1.length = out.1.length ∧ out.2.1.length = out.2.2.length ∧
      (entries (out.2.1, out.1, out.2.2)).Pairwise lex_le ∧
      (∀ r c, with_keys r c (entries (out.2.1, out.1, out.2.2)) =
        with_keys r c (entries (row_ids, col_ids, data))) ∧
      (entries (out.2.1, out.1, out.2.2)).Perm (entries (row_ids, col_ids, data)) := by
  obtain ⟨out, hout, hl1, hl2, hent⟩ := coo_sorting_entries col_ids row_ids data hrc hrd
  refine ⟨out, hout, hl1, hl2, ?_, ?_, ?_⟩
  · rw [hent]
    exact pairwise_insertionSort_refine (fun e : Int × Int × W => e.1)
      (fun a b => a.2.1 ≤ b.2.1) _
      (sorted_insertionSort_key (fun e : Int × Int × W => e.2.1) _)
  · intro r c
    rw [hent, with_keys_insertionSort_row, with_keys_insertionSort_col]
  · rw [hent]
    exact (List.perm_insertionSort _ _).trans (List.perm_insertionSort _ _)

/-- On entries that are already in lexicographic (row, col) order `coo_sorting`
returns its three arrays unchanged. -/
theorem coo_sorting_of_lex_sorted {W : Type} (col_ids row_ids : List Int) (data : List W)
    (hrc : row_ids.length = col_ids.length) (hrd : row_ids.length = data.length)
    (hs : (entries (row_ids, col_ids, data)).Pairwise lex_le) :
    coo_sorting col_ids row_ids data = some (col_ids, row_ids, data) := by
  obtain ⟨out, hout, hl1, hl2, hlex, hkeys, _⟩ :=
    coo_sorting_lex_sorted col_ids row_ids data hrc hrd
  have heq := eq_of_lex_sorted_of_with_keys _ _ hlex hs hkeys
  obtain ⟨a1, a2, a3⟩ := entries_maps out.2.1 out.1 out.2.2 hl1 hl2
  obtain ⟨b1, b2, b3⟩ := entries_maps row_ids col_ids data hrc hrd
  rw [heq] at a1 a2 a3
  rw [b1] at a1
  rw [b2] at a2
  rw [b3] at a3
  rw [hout]
  congr 1
  exact Prod.ext a2.symm (Prod.ext a1.symm a3.symm)

/-- The closed form of the three-key `coo_sorting` on arrays of equal length. -/
theorem coo_sorting_three_keys_eq (i j k : List Int)
    (hij : i.length = j.length) (hik : i.length = k.length) :
    coo_sorting_three_keys i j k =
      some (picked i (reordered i (reordered j (reordered k (List.range i.length)))),
        picked j (reordered i (reordered j (reordered k (List.range i.length)))),
        picked k (reordered i (reordered j (reordered k (List.range i.length))))) ∧
    (reordered i (reordered j (reordered k (List.range i.length)))).Perm
      (List.range i.length) ∧
    (∀ m ∈ reordered j (reordered k (List.range i.length)), m < i.length) ∧
    (∀ m ∈ reordered k (List.range i.length), m < i.length) := by
  have h0 : ∀ m ∈ List.range i.length, m < k.length :=
    fun m hm => by rw [← hik]; exact List.mem_range.mp hm
  have h1 : (reordered k (List.range i.length)).Perm (List.range i.length) :=
    reordered_perm k _ h0
  have b1 := perm_range_bound h1
  have b1j : ∀ m ∈ reordered k (List.range i.length), m < j.length :=
    fun m hm => by rw [← hij]; exact b1.2 m hm
  have h2 : (reordered j (reordered k (List.range i.length))).Perm (List.range i.length) :=
    (reordered_perm j _ b1j).trans h1
  have b2 := perm_range_bound h2
  have h3 : (reordered i (reordered j (reordered k (List.range i.length)))).Perm
      (List.range i.length) := (reordered_perm i _ b2.2).trans h2
  have b3 := perm_range_bound h3
  refine ⟨?_, h3, b2.2, b1.2⟩
  unfold coo_sorting_three_keys
  rw [if_pos ⟨hij, hik⟩]
  simp only [thrust.sequence, Option.bind_eq_bind]
  rw [update_permutation_eq k _ (by simp [hik]) h0]
  simp only [Option.some_bind]
  rw [update_permutation_eq j _ (by rw [b1.1, hij]) b1j]
  simp only [Option.some_bind]
  rw [update_permutation_eq i _ b2.1 b2.2]
  simp only [Option.some_bind]
  rw [apply_permutation_eq k _ (by rw [b3.1, hik]) (fun m hm => by rw [← hik]; exact b3.2 m hm)]
  simp only [Option.some_bind]
  rw [apply_permutation_eq j _ (by rw [b3.1, hij]) (fun m hm => by rw [← hij]; exact b3.2 m hm)]
  simp only [Option.some_bind]
  rw [apply_permutation_eq i _ b3.1 b3.2]
  simp only [Option.some_bind]
  have hs : thrust.is_sorted
      (picked i (reordered i (reordered j (reordered k (List.range i.length))))) = true := by
    rw [is_sorted_iff]
    exact sorted_picked_reordered i _ b2.2
  rw [if_pos hs]

/-- On arrays of equal length the three-key `coo_sorting` returns a
rearrangement of the input triples in lexicographic (i, j, k) order. -/
theorem coo_sorting_three_keys_lex_sorted (i j k : List Int)
    (hij : i.length = j.length) (hik : i.length = k.length) :
    ∃ out, coo_sorting_three_keys i j k = some out ∧
      (entries out).Pairwise lex3_le ∧ (entries out).Perm (entries (i, j, k)) := by
  obtain ⟨heq, h3, b2, b1⟩ := coo_sorting_three_keys_eq i j k hij hik
  have b3 := perm_range_bound h3
  obtain ⟨m1, m2, m3⟩ := entries_maps i j k hij hik
  have hlenE : (entries (i, j, k)).length = i.length := entries_length i j k hij hik
  have hent : entries (picked i (reordered i (reordered j (reordered k (List.range i.length)))),
      picked j (reordered i (reordered j (reordered k (List.range i.length)))),
      picked k (reordered i (reordered j (reordered k (List.range i.length))))) =
      List.insertionSort (fun a b : Int × Int × Int => a.1 ≤ b.1)
        (List.insertionSort (fun a b : Int × Int × Int => a.2.1 ≤ b.2.1)
          (List.insertionSort (fun a b : Int × Int × Int => a.2.2 ≤ b.2.2)
            (entries (i, j, k)))) := by
    rw [entries_picked i j k _ hij hik b3.2,
      picked_reordered_entries (fun e : Int × Int × Int => e.1) _ i m1.symm _ b2,
      picked_reordered_entries (fun e : Int × Int × Int => e.2.1) _ j m2.symm _
        (fun m hm => by rw [← hij]; exact b1 m hm),
      picked_reordered_entries (fun e : Int × Int × Int => e.2.2) _ k m3.symm _
        (fun m hm => by rw [← hik]; exact List.mem_range.mp hm)]
    rw [← hlenE, picked_range]
  refine ⟨_, heq, ?_, ?_⟩
  · rw [hent]
    exact pairwise_insertionSort_refine (fun e : Int × Int × Int => e.1) _ _
      (pairwise_insertionSort_refine (fun e : Int × Int × Int => e.2.1)
        (fun a b => a.2.2 ≤ b.2.2) _
        (sorted_insertionSort_key (fun e : Int × Int × Int => e.2.2) _))
  · rw [hent]
    exact ((List.perm_insertionSort _ _).trans (List.perm_insertionSort _ _)).trans
      (List.perm_insertionSort _ _)

/-! ## Further claims on `coo_sorting` -/

/-- C11: `coo_sorting` is idempotent: for every equal-length input it returns,
and applying it to the three arrays it returned gives exactly those arrays. -/
theorem coo_sorting_idempotent {W : Type} (col_ids row_ids : List Int) (data : List W)
    (hrc : row_ids.length = col_ids.length) (hrd : row_ids.length = data.length) :
    ∃ out, coo_sorting col_ids row_ids data = some out ∧
      coo_sorting out.1 out.2.1 out.2.2 = some out := by
  obtain ⟨out, hout, hl1, hl2, hlex, _, _⟩ :=
    coo_sorting_lex_sorted col_ids row_ids data hrc hrd
  exact ⟨out, hout, coo_sorting_of_lex_sorted out.1 out.2.1 out.2.2 hl1 hl2 hlex⟩

/-- C11, witness: four entries, two of them with the same (row, col). -/
theorem coo_sorting_idempotent_witness :
    ([1, 0, 1, 0] : List Int).length = ([3, 1, 3, 0] : List Int).length ∧
    ([1, 0, 1, 0] : List Int).length = ([10, 20, 30, 40] : List Int).length ∧
    ∃ out, coo_sorting [3, 1, 3, 0] [1, 0, 1, 0] [(10 : Int), 20, 30, 40] = some out ∧
      coo_sorting out.1 out.2.1 out.2.2 = some out :=
  ⟨rfl, rfl, coo_sorting_idempotent [3, 1, 3, 0] [1, 0, 1, 0] [10, 20, 30, 40] rfl rfl⟩

/-- C12, as the code behaves: for every equal-length input whose row_ids array
is already non-decreasing, `coo_sorting` leaves row_ids unchanged; it leaves
col_ids and data unchanged as well when the entries are already in
lexicographic (row, col) order, that is, when col_ids is non-decreasing within
every run of equal rows. -/
theorem coo_sorting_sorted_input {W : Type} (col_ids row_ids : List Int) (data : List W)
    (hrc : row_ids.length = col_ids.length) (hrd : row_ids.length = data.length)
    (hrow : row_ids.Sorted (fun a b => a ≤ b)) :
    ∃ out, coo_sorting col_ids row_ids data = some out ∧ out.2.1 = row_ids ∧
      ((entries (row_ids, col_ids, data)).Pairwise lex_le →
        out = (col_ids, row_ids, data)) := by
  obtain ⟨out, hout, hl1, hl2, hlex, _, hperm⟩ :=
    coo_sorting_lex_sorted col_ids row_ids data hrc hrd
  refine ⟨out, hout, ?_, ?_⟩
  · obtain ⟨a1, _, _⟩ := entries_maps out.2.1 out.1 out.2.2 hl1 hl2
    obtain ⟨b1, _, _⟩ := entries_maps row_ids col_ids data hrc hrd
    have hp : out.2.1.Perm row_ids := by
      have h := hperm.map (fun e : Int × Int × W => e.1)
      rw [a1, b1] at h
      exact h
    have hsorted : out.2.1.Sorted (fun a b => a ≤ b) := by
      rw [← a1]
      unfold List.Sorted
      rw [List.pairwise_map]
      refine hlex.imp ?_
      intro a b hab
      rcases hab with h | h
      · exact le_of_lt h
      · exact le_of_eq h.1
    exact List.eq_of_perm_of_sorted hp hsorted hrow
  · intro hs
    have h := coo_sorting_of_lex_sorted col_ids row_ids data hrc hrd hs
    rw [hout] at h
    exact Option.some.inj h

/-- C12, witness: the entries (0,1,5), (0,2,6), (1,0,7), in lexicographic
order, come back unchanged. -/
theorem coo_sorting_sorted_input_witness :
    ([0, 0, 1] : List Int).length = ([1, 2, 0] : List Int).length ∧
    ([0, 0, 1] : List Int).length = ([5, 6, 7] : List Int).length ∧
    ([0, 0, 1] : List Int).Sorted (fun a b => a ≤ b) ∧
    (entries ([0, 0, 1], [1, 2, 0], [(5 : Int), 6, 7])).Pairwise lex_le ∧
    coo_sorting [1, 2, 0] [0, 0, 1] [(5 : Int), 6, 7] = some ([1, 2, 0], [0, 0, 1], [5, 6, 7]) := by
  have hrow : ([0, 0, 1] : List Int).Sorted (fun a b => a ≤ b) := by
    unfold List.Sorted; decide
  have hlex : (entries ([0, 0, 1], [1, 2, 0], [(5 : Int), 6, 7])).Pairwise lex_le := by
    simp [entries, lex_le]
  obtain ⟨out, hout, _, hfix⟩ :=
    coo_sorting_sorted_input [1, 2, 0] [0, 0, 1] [(5 : Int), 6, 7] rfl rfl hrow
  refine ⟨rfl, rfl, hrow, hlex, ?_⟩
  rw [hout, hfix hlex]

/-- C12, counterexample to the claim as stated: the rows [0, 0] are
non-decreasing, and `coo_sorting` turns the columns [1, 0] into [0, 1] and the
weights [5, 6] into [6, 5]. -/
theorem coo_sorting_sorted_rows_counterexample :
    ([0, 0] : List Int).length = ([1, 0] : List Int).length ∧
    ([0, 0] : List Int).length = ([5, 6] : List Int).length ∧
    thrust.is_sorted [0, 0] = true ∧
    coo_sorting [1, 0] [0, 0] [(5 : Int), 6] = some ([0, 1], [0, 0], [6, 5]) ∧
    (([0, 1], [0, 0], [6, 5]) : List Int × List Int × List Int) ≠ ([1, 0], [0, 0], [5, 6]) := by
  refine ⟨rfl, rfl, by decide, by decide, by decide⟩

/-- C18: for every equal-length input `coo_sorting(col_ids, row_ids, data)`
returns the entries in lexicographic (row, col) order: any earlier entry, in
particular the one just before, is at most any later one; and for every key
(row, col) the entries with that key are the input entries with that key in
their input order (so their weights appear in input order).  The three-key
overload `coo_sorting(i, j, k)` returns a rearrangement of its triples in
lexicographic (i, j, k) order. -/
theorem coo_sorting_stable_lex {W : Type} (col_ids row_ids : List Int) (data : List W)
    (hrc : row_ids.length = col_ids.length) (hrd : row_ids.length = data.length)
    (i j k : List Int) (hij : i.length = j.length) (hik : i.length = k.length) :
    (∃ out, coo_sorting col_ids row_ids data = some out ∧
      (entries (out.2.1, out.1, out.2.2)).Pairwise lex_le ∧
      (∀ n a b, (entries (out.2.1, out.1, out.2.2))[n]? = some a →
        (entries (out.2.1, out.1, out.2.2))[n + 1]? = some b → lex_le a b) ∧
      (∀ r c, with_keys r c (entries (out.2.1, out.1, out.2.2)) =
        with_keys r c (entries (row_ids, col_ids, data))) ∧
      (entries (out.2.1, out.1, out.2.2)).Perm (entries (row_ids, col_ids, data))) ∧
    (∃ out, coo_sorting_three_keys i j k = some out ∧
      (entries out).Pairwise lex3_le ∧ (entries out).Perm (entries (i, j, k))) := by
  obtain ⟨out, hout, _, _, hlex, hkeys, hperm⟩ :=
    coo_sorting_lex_sorted col_ids row_ids data hrc hrd
  refine ⟨⟨out, hout, hlex, ?_, hkeys, hperm⟩, coo_sorting_three_keys_lex_sorted i j k hij hik⟩
  intro n a b ha hb
  obtain ⟨hn, rfl⟩ := List.getElem?_eq_some.mp ha
  obtain ⟨hn1, rfl⟩ := List.getElem?_eq_some.mp hb
  exact List.pairwise_iff_getElem.mp hlex n (n + 1) hn hn1 (Nat.lt_succ_self n)

/-- C18, witness: two entries share the key (1, 3) and keep their input order
(weights 10 before 30); the three-key input is sorted by (i, j, k). -/
theorem coo_sorting_stable_lex_witness :
    coo_sorting [3, 1, 3, 0] [1, 0, 1, 0] [(10 : Int), 20, 30, 40] =
      some ([0, 1, 3, 3], [0, 0, 1, 1], [40, 20, 10, 30]) ∧
    coo_sorting_three_keys [1, 0, 1, 0] [2, 2, 1, 2] [5, 4, 3, 2] =
      some ([0, 0, 1, 1], [2, 2, 1, 2], [2, 4, 3, 5]) ∧
    ((∃ out, coo_sorting [3, 1, 3, 0] [1, 0, 1, 0] [(10 : Int), 20, 30, 40] = some out ∧
      (entries (out.2.1, out.1, out.2.2)).Pairwise lex_le ∧
      (∀ n a b, (entries (out.2.1, out.1, out.2.2))[n]? = some a →
        (entries (out.2.1, out.1, out.2.2))[n + 1]? = some b → lex_le a b) ∧
      (∀ r c, with_keys r c (entries (out.2.1, out.1, out.2.2)) =
        with_keys r c (entries ([1, 0, 1, 0], [3, 1, 3, 0], [(10 : Int), 20, 30, 40]))) ∧
      (entries (out.2.1, out.1, out.2.2)).Perm
        (entries ([1, 0, 1, 0], [3, 1, 3, 0], [(10 : Int), 20, 30, 40]))) ∧
    (∃ out, coo_sorting_three_keys [1, 0, 1, 0] [2, 2, 1, 2] [5, 4, 3, 2] = some out ∧
      (entries out).Pairwise lex3_le ∧
      (entries out).Perm (entries ([1, 0, 1, 0], [2, 2, 1, 2], [5, 4, 3, 2])))) :=
  ⟨by decide, by decide,
    coo_sorting_stable_lex [3, 1, 3, 0] [1, 0, 1, 0] [10, 20, 30, 40] rfl rfl
      [1, 0, 1, 0] [2, 2, 1, 2] [5, 4, 3, 2] rfl rfl⟩

/-! ## Lemmas: `unique_by_key_copy` on a row array without gaps -/

theorem entries_before_cons_ge (k r : Int) (ks : List Int) (h : r ≤ k) :
    entries_before (k :: ks) r = entries_before ks r := by
  simp [entries_before, List.filter_cons, not_lt.mpr h]

end RAMA
